import Mathlib

/-!
Verification of the Playground standard packet encoder
(src/playground/network/packet/encoders/PlaygroundStandardPacketEncoder.py).

The Python code is shallowly embedded: byte streams are lists of naturals
(each byte below 256), struct.pack / struct.unpack become explicit
big-endian byte constructions, and the generator-based resumable decoders
become pure functions from the byte buffer to a three-valued result
(NeedMore / failure / value with consumed count).  A generator that has
yielded the waiting sentinel and is later resumed behaves exactly like
re-running the pure function on the extended buffer, because the adapter
only consumes bytes once `available()` reaches the requested size; the
lawfulness lemmas below (`DLawful`) make that equivalence precise.
-/

namespace Playground

/-! ## Errors raised by the encoder (Python exception kinds) -/

/-- Failures of the codec.  Each constructor names the Python exception site:
struct.error from struct.pack / struct.unpack, the PacketEncodingError
messages, KeyError from dict lookups (the float width table and the tag
bijection inverse), UnicodeDecodeError from bytes.decode, and the generic
Exception raised at frame-tail fixup. -/
inductive Err where
  | structError
  | uintSizeError
  | stringTooLong
  | bufferTooLong
  | unicodeDecodeError
  | keyError
  | duplicateField
  | duplicateExplicitTag
  | fieldUnsetNotOptional (name : String)
  | fieldWrapped (name : String) (cause : Err)
  | listWrapped (index : Nat)
  | unpackLimit
  | frameError
  deriving Repr, DecidableEq

/-! ## Big-endian byte packing (struct.pack / struct.unpack) -/

/-- Big-endian byte string of width `w` for value `v` (low bytes are `v % 256`
at the end), as produced by struct.pack with codes B, H, I, Q. -/
def beBytes : Nat → Nat → List Nat
  | 0, _ => []
  | w + 1, v => beBytes w (v / 256) ++ [v % 256]

/-- Big-endian value of a byte string, as read by struct.unpack. -/
def beVal (l : List Nat) : Nat := l.foldl (fun a b => a * 256 + b) 0

theorem beBytes_length (w v : Nat) : (beBytes w v).length = w := by
  induction w generalizing v with
  | zero => rfl
  | succ w ih => simp [beBytes, ih]

theorem beVal_append_singleton (l : List Nat) (b : Nat) :
    beVal (l ++ [b]) = beVal l * 256 + b := by
  simp [beVal, List.foldl_append]

theorem beVal_beBytes (w v : Nat) (h : v < 2 ^ (8 * w)) :
    beVal (beBytes w v) = v := by
  induction w generalizing v with
  | zero =>
    simp at h
    simp [beBytes, beVal, h]
  | succ w ih =>
    have hdiv : v / 256 < 2 ^ (8 * w) := by
      have h256 : (256 : Nat) = 2 ^ 8 := by norm_num
      rw [Nat.div_lt_iff_lt_mul (by norm_num)]
      calc v < 2 ^ (8 * (w + 1)) := h
        _ = 2 ^ (8 * w) * 2 ^ 8 := by ring
        _ = 2 ^ (8 * w) * 256 := by norm_num
    rw [beBytes, beVal_append_singleton, ih _ hdiv]
    omega

theorem beBytes_lt_256 (w v : Nat) : ∀ b ∈ beBytes w v, b < 256 := by
  induction w generalizing v with
  | zero => simp [beBytes]
  | succ w ih =>
    intro b hb
    rw [beBytes] at hb
    rcases List.mem_append.1 hb with h | h
    · exact ih _ _ h
    · simp at h
      omega

/-- struct.pack for an unsigned big-endian code of byte width `w`:
out-of-range values raise struct.error. -/
def packNat (w v : Nat) : Except Err (List Nat) :=
  if v < 2 ^ (8 * w) then .ok (beBytes w v) else .error .structError

/-- struct.pack for a signed big-endian code of byte width `w` (two's
complement); out-of-range values raise struct.error. -/
def packInt (w : Nat) (v : Int) : Except Err (List Nat) :=
  if -(2 ^ (8 * w - 1) : Int) ≤ v ∧ v < 2 ^ (8 * w - 1) then
    .ok (beBytes w (v % (2 ^ (8 * w) : Int)).toNat)
  else .error .structError

/-- struct.unpack for a signed big-endian code of byte width `w`. -/
def sintOfBytes (w : Nat) (n : Nat) : Int :=
  if 2 ^ (8 * w - 1) ≤ n then (n : Int) - (2 ^ (8 * w) : Int) else (n : Int)

/-- struct.pack code `{n}s`: the bytes are truncated or zero-padded to
exactly `n` bytes. -/
def padTrunc (n : Nat) (bs : List Nat) : List Nat :=
  bs.take n ++ List.replicate (n - bs.length) 0

/-! ## UTF-8 (Python str.encode / bytes.decode, strict) -/

/-- UTF-8 encoding of one code point. -/
def utf8EncodeChar (c : Char) : List Nat :=
  if c.toNat < 0x80 then [c.toNat]
  else if c.toNat < 0x800 then [0xC0 + c.toNat / 64, 0x80 + c.toNat % 64]
  else if c.toNat < 0x10000 then
    [0xE0 + c.toNat / 4096, 0x80 + c.toNat / 64 % 64, 0x80 + c.toNat % 64]
  else
    [0xF0 + c.toNat / 262144, 0x80 + c.toNat / 4096 % 64, 0x80 + c.toNat / 64 % 64,
      0x80 + c.toNat % 64]

/-- UTF-8 encoding of a code-point sequence. -/
def utf8Bytes : List Char → List Nat
  | [] => []
  | c :: rest => utf8EncodeChar c ++ utf8Bytes rest

/-- UTF-8 bytes of a Python string (str.encode with the utf-8 codec). -/
def strBytes (s : String) : List Nat := utf8Bytes s.data

mutual

/-- Strict UTF-8 decoding (Python bytes.decode with the utf-8 codec):
rejects truncated sequences, stray continuation bytes, overlong forms,
surrogates and out-of-range values. -/
def utf8Decode : List Nat → Option (List Char)
  | [] => some []
  | b :: rest =>
    if b < 0x80 then
      (utf8Decode rest).map (fun cs => Char.ofNat b :: cs)
    else if b < 0xC2 then none
    else if b < 0xE0 then utf8DecodeTwo b rest
    else if b < 0xF0 then utf8DecodeThree b rest
    else if b < 0xF5 then utf8DecodeFour b rest
    else none

/-- Continuation of a two-byte UTF-8 sequence whose leading byte is `b`. -/
def utf8DecodeTwo (b : Nat) : List Nat → Option (List Char)
  | b1 :: rest1 =>
    if 0x80 ≤ b1 ∧ b1 < 0xC0 then
      (utf8Decode rest1).map (fun cs => Char.ofNat ((b - 0xC0) * 64 + (b1 - 0x80)) :: cs)
    else none
  | [] => none

/-- Continuation of a three-byte UTF-8 sequence whose leading byte is `b`. -/
def utf8DecodeThree (b : Nat) : List Nat → Option (List Char)
  | b1 :: b2 :: rest2 =>
    if 0x80 ≤ b1 ∧ b1 < 0xC0 ∧ 0x80 ≤ b2 ∧ b2 < 0xC0 then
      if (b - 0xE0) * 4096 + (b1 - 0x80) * 64 + (b2 - 0x80) < 0x800 then none
      else if 0xD800 ≤ (b - 0xE0) * 4096 + (b1 - 0x80) * 64 + (b2 - 0x80) ∧
          (b - 0xE0) * 4096 + (b1 - 0x80) * 64 + (b2 - 0x80) < 0xE000 then none
      else (utf8Decode rest2).map
        (fun cs => Char.ofNat ((b - 0xE0) * 4096 + (b1 - 0x80) * 64 + (b2 - 0x80)) :: cs)
    else none
  | _ => none

/-- Continuation of a four-byte UTF-8 sequence whose leading byte is `b`. -/
def utf8DecodeFour (b : Nat) : List Nat → Option (List Char)
  | b1 :: b2 :: b3 :: rest3 =>
    if 0x80 ≤ b1 ∧ b1 < 0xC0 ∧ 0x80 ≤ b2 ∧ b2 < 0xC0 ∧ 0x80 ≤ b3 ∧ b3 < 0xC0 then
      if (b - 0xF0) * 262144 + (b1 - 0x80) * 4096 + (b2 - 0x80) * 64 + (b3 - 0x80)
          < 0x10000 then none
      else if 0x110000 ≤
          (b - 0xF0) * 262144 + (b1 - 0x80) * 4096 + (b2 - 0x80) * 64 + (b3 - 0x80) then none
      else (utf8Decode rest3).map
        (fun cs => Char.ofNat ((b - 0xF0) * 262144 + (b1 - 0x80) * 4096 + (b2 - 0x80) * 64
          + (b3 - 0x80)) :: cs)
    else none
  | _ => none

end

theorem utf8Decode_encodeChar (c : Char) (rest : List Nat) :
    utf8Decode (utf8EncodeChar c ++ rest) = (utf8Decode rest).map (fun cs => c :: cs) := by
  have hv : c.toNat < 55296 ∨ 57343 < c.toNat ∧ c.toNat < 1114112 := c.valid
  have hofn : Char.ofNat c.toNat = c := Char.ofNat_toNat c
  by_cases h1 : c.toNat < 0x80
  · rw [utf8EncodeChar, if_pos h1, List.cons_append, List.nil_append, utf8Decode]
    rw [if_pos h1, hofn]
  · by_cases h2 : c.toNat < 0x800
    · have e4 : (0x80 ≤ 0x80 + c.toNat % 64 ∧ 0x80 + c.toNat % 64 < 0xC0) := by omega
      rw [utf8EncodeChar, if_neg h1, if_pos h2, List.cons_append, List.cons_append,
        List.nil_append, utf8Decode]
      rw [if_neg (by omega), if_neg (by omega), if_pos (by omega), utf8DecodeTwo, if_pos e4]
      have hval : (0xC0 + c.toNat / 64 - 0xC0) * 64 + (0x80 + c.toNat % 64 - 0x80) = c.toNat := by
        omega
      rw [hval, hofn]
    · by_cases h3 : c.toNat < 0x10000
      · have e5 : (0x80 ≤ 0x80 + c.toNat / 64 % 64 ∧ 0x80 + c.toNat / 64 % 64 < 0xC0 ∧
            0x80 ≤ 0x80 + c.toNat % 64 ∧ 0x80 + c.toNat % 64 < 0xC0) := by omega
        rw [utf8EncodeChar, if_neg h1, if_neg h2, if_pos h3, List.cons_append, List.cons_append,
          List.cons_append, List.nil_append, utf8Decode]
        rw [if_neg (by omega), if_neg (by omega), if_neg (by omega), if_pos (by omega),
          utf8DecodeThree, if_pos e5]
        have hval : (0xE0 + c.toNat / 4096 - 0xE0) * 4096 + (0x80 + c.toNat / 64 % 64 - 0x80) * 64
            + (0x80 + c.toNat % 64 - 0x80) = c.toNat := by
          omega
        rw [if_neg (by omega), if_neg (by omega), hval, hofn]
      · have e6 : (0x80 ≤ 0x80 + c.toNat / 4096 % 64 ∧ 0x80 + c.toNat / 4096 % 64 < 0xC0 ∧
            0x80 ≤ 0x80 + c.toNat / 64 % 64 ∧ 0x80 + c.toNat / 64 % 64 < 0xC0 ∧
            0x80 ≤ 0x80 + c.toNat % 64 ∧ 0x80 + c.toNat % 64 < 0xC0) := by omega
        rw [utf8EncodeChar, if_neg h1, if_neg h2, if_neg h3, List.cons_append, List.cons_append,
          List.cons_append, List.cons_append, List.nil_append, utf8Decode]
        rw [if_neg (by omega), if_neg (by omega), if_neg (by omega), if_neg (by omega),
          if_pos (by omega), utf8DecodeFour, if_pos e6]
        have hval : (0xF0 + c.toNat / 262144 - 0xF0) * 262144
            + (0x80 + c.toNat / 4096 % 64 - 0x80) * 4096
            + (0x80 + c.toNat / 64 % 64 - 0x80) * 64
            + (0x80 + c.toNat % 64 - 0x80) = c.toNat := by
          omega
        rw [if_neg (by omega), if_neg (by omega), hval, hofn]

theorem utf8Decode_utf8Bytes_append (cs : List Char) (rest : List Nat) :
    utf8Decode (utf8Bytes cs ++ rest) = (utf8Decode rest).map (fun l => cs ++ l) := by
  induction cs with
  | nil =>
    simp [utf8Bytes]
  | cons c cs ih =>
    rw [utf8Bytes, List.append_assoc, utf8Decode_encodeChar, ih, Option.map_map]
    rfl

theorem utf8Decode_utf8Bytes (cs : List Char) : utf8Decode (utf8Bytes cs) = some cs := by
  have := utf8Decode_utf8Bytes_append cs []
  simpa [utf8Decode] using this

theorem utf8Decode_strBytes (s : String) : utf8Decode (strBytes s) = some s.data :=
  utf8Decode_utf8Bytes s.data

/-! ## The resumable decode protocol

Python decoders are generators over `EncoderStreamAdapter.unpackIterator`,
which yields DECODE_WAITING_FOR_STREAM while `available()` is short of the
requested size and otherwise consumes exactly that many bytes.  A decoder is
embedded as a pure function of the not-yet-consumed part of the stream,
returning NeedMore, a raised error, or the decoded value together with the
number of bytes consumed. -/

/-- Result of running a resumable decoder on a buffer. -/
inductive DRes (α : Type) where
  | needMore
  | fail (e : Err)
  | done (a : α) (consumed : Nat)
  deriving Repr

/-- A resumable decoder reading from the unconsumed part of the stream. -/
def DecM (α : Type) : Type := List Nat → DRes α

/-- Decoder returning a value without consuming bytes. -/
def pureD {α : Type} (a : α) : DecM α := fun _ => .done a 0

/-- Decoder raising an error. -/
def failD {α : Type} (e : Err) : DecM α := fun _ => .fail e

/-- Sequencing of resumable decoders: the continuation reads the bytes left
by the first decoder, and consumed counts add up. -/
def bindD {α β : Type} (m : DecM α) (f : α → DecM β) : DecM β := fun bs =>
  match m bs with
  | .needMore => .needMore
  | .fail e => .fail e
  | .done a k =>
    match f a (bs.drop k) with
    | .needMore => .needMore
    | .fail e => .fail e
    | .done b k2 => .done b (k + k2)

/-- Lift a non-resumable computation into a decoder. -/
def liftE {α : Type} (x : Except Err α) : DecM α :=
  match x with
  | .ok a => pureD a
  | .error e => failD e

/-- Wrap the error of a decoder (Python re-raise with a wrapper exception). -/
def wrapD {α : Type} (w : Err → Err) (m : DecM α) : DecM α := fun bs =>
  match m bs with
  | .fail e => .fail (w e)
  | r => r

/-- EncoderStreamAdapter.unpackIterator for a fixed-size read of `n` bytes
under the adapter's max-size cap: raises when a nonzero cap is exceeded
(Python tests the cap with `if self._max_size`, so a cap of 0 is inert),
yields the waiting sentinel while fewer than `n` bytes are available, and
otherwise consumes exactly `n` bytes. -/
def readBytes (cap : Option Nat) (n : Nat) : DecM (List Nat) := fun bs =>
  match cap with
  | some c =>
    if c ≠ 0 ∧ c < n then .fail .unpackLimit
    else if bs.length < n then .needMore
    else .done (bs.take n) n
  | none =>
    if bs.length < n then .needMore
    else .done (bs.take n) n

/-- Fixed-size big-endian unsigned read (struct.unpack codes B, H, Q). -/
def readBE (cap : Option Nat) (n : Nat) : DecM Nat :=
  bindD (readBytes cap n) (fun l => pureD (beVal l))

/-! ## Decoder laws

The two facts that make the pure-function embedding of the generators
sound: a successful decode consumed a determined portion of the stream and
is stable under extending the buffer past that portion, and a raised error
is stable under extending the buffer.  Together they give the resumability
contract: on any shorter portion of the stream the decoder can only report
NeedMore. -/

def DLawful {α : Type} (m : DecM α) : Prop :=
  (∀ bs a k, m bs = .done a k →
      k ≤ bs.length ∧ ∀ ext, m (bs.take k ++ ext) = .done a k) ∧
  (∀ bs e, m bs = .fail e → ∀ ext, m (bs ++ ext) = .fail e)

theorem dlawful_pure {α : Type} (a : α) : DLawful (pureD a) := by
  constructor
  · intro bs b k h
    simp only [pureD] at h
    cases h
    simp [pureD]
  · intro bs e h
    simp [pureD] at h

theorem dlawful_fail {α : Type} (e : Err) : DLawful (failD (α := α) e) := by
  constructor
  · intro bs b k h
    simp [failD] at h
  · intro bs e2 h
    simp only [failD] at h
    cases h
    simp [failD]

theorem dlawful_liftE {α : Type} (x : Except Err α) : DLawful (liftE x) := by
  cases x with
  | ok a => exact dlawful_pure a
  | error e => exact dlawful_fail e

theorem dlawful_readBytes (cap : Option Nat) (n : Nat) : DLawful (readBytes cap n) := by
  constructor
  · intro bs a k h
    cases cap with
    | none =>
      simp only [readBytes] at h
      by_cases hlen : bs.length < n
      · rw [if_pos hlen] at h
        cases h
      · rw [if_neg hlen] at h
        cases h
        refine ⟨by omega, ?_⟩
        intro ext
        have hlen2 : n ≤ bs.length := by omega
        have htk : (bs.take n).length = n := by
          simp [List.length_take]
          omega
        simp only [readBytes]
        rw [if_neg (by simp [htk])]
        rw [List.take_append_of_le_length (by omega), List.take_take]
        simp
    | some c =>
      simp only [readBytes] at h
      by_cases hc : c ≠ 0 ∧ c < n
      · rw [if_pos hc] at h
        cases h
      · rw [if_neg hc] at h
        by_cases hlen : bs.length < n
        · rw [if_pos hlen] at h
          cases h
        · rw [if_neg hlen] at h
          cases h
          refine ⟨by omega, ?_⟩
          intro ext
          have htk : (bs.take n).length = n := by
            simp [List.length_take]
            omega
          simp only [readBytes]
          rw [if_neg hc, if_neg (by simp [htk])]
          rw [List.take_append_of_le_length (by omega), List.take_take]
          simp
  · intro bs e h
    cases cap with
    | none =>
      simp only [readBytes] at h
      by_cases hlen : bs.length < n
      · rw [if_pos hlen] at h
        cases h
      · rw [if_neg hlen] at h
        cases h
    | some c =>
      simp only [readBytes] at h
      by_cases hc : c ≠ 0 ∧ c < n
      · intro ext
        simp only [readBytes]
        rw [if_pos hc]
        rw [if_pos hc] at h
        exact h
      · rw [if_neg hc] at h
        by_cases hlen : bs.length < n
        · rw [if_pos hlen] at h
          cases h
        · rw [if_neg hlen] at h
          cases h

theorem dlawful_bind {α β : Type} {m : DecM α} {f : α → DecM β}
    (hm : DLawful m) (hf : ∀ a, DLawful (f a)) : DLawful (bindD m f) := by
  constructor
  · intro bs b k h
    simp only [bindD] at h
    cases hmr : m bs with
    | needMore => rw [hmr] at h; simp only [] at h; cases h
    | fail e => rw [hmr] at h; simp only [] at h; cases h
    | done a k1 =>
      rw [hmr] at h
      simp only [] at h
      cases hfr : f a (bs.drop k1) with
      | needMore => rw [hfr] at h; simp only [] at h; cases h
      | fail e => rw [hfr] at h; simp only [] at h; cases h
      | done b2 k2 =>
        rw [hfr] at h
        simp only [] at h
        cases h
        obtain ⟨hk1, hext1⟩ := hm.1 bs a k1 hmr
        obtain ⟨hk2, hext2⟩ := (hf a).1 (bs.drop k1) b k2 hfr
        rw [List.length_drop] at hk2
        refine ⟨by omega, ?_⟩
        intro ext
        simp only [bindD]
        have hsplit : bs.take (k1 + k2) ++ ext =
            bs.take k1 ++ ((bs.drop k1).take k2 ++ ext) := by
          rw [← List.append_assoc, List.take_add]
        rw [hsplit, hext1]
        simp only []
        have hdrop : (bs.take k1 ++ ((bs.drop k1).take k2 ++ ext)).drop k1 =
            (bs.drop k1).take k2 ++ ext := by
          rw [List.drop_append_of_le_length (by simp [List.length_take]; omega)]
          have hnil : (bs.take k1).drop k1 = [] := by
            simp [List.drop_take]
          rw [hnil, List.nil_append]
        rw [hdrop, hext2]
  · intro bs e h
    simp only [bindD] at h
    cases hmr : m bs with
    | needMore => rw [hmr] at h; simp only [] at h; cases h
    | fail e2 =>
      rw [hmr] at h
      simp only [] at h
      cases h
      intro ext
      simp only [bindD]
      rw [hm.2 bs e hmr ext]
    | done a k1 =>
      rw [hmr] at h
      simp only [] at h
      cases hfr : f a (bs.drop k1) with
      | needMore => rw [hfr] at h; simp only [] at h; cases h
      | fail e2 =>
        rw [hfr] at h
        simp only [] at h
        cases h
        intro ext
        obtain ⟨hk1, hext1⟩ := hm.1 bs a k1 hmr
        simp only [bindD]
        have hbs : bs ++ ext = bs.take k1 ++ (bs.drop k1 ++ ext) := by
          rw [← List.append_assoc]
          simp
        rw [hbs, hext1, ← hbs]
        simp only []
        have hdrop : (bs ++ ext).drop k1 = bs.drop k1 ++ ext := by
          rw [List.drop_append_of_le_length hk1]
        rw [hdrop, (hf a).2 (bs.drop k1) e hfr ext]
      | done b2 k2 => rw [hfr] at h; simp only [] at h; cases h

theorem dlawful_wrap {α : Type} (w : Err → Err) {m : DecM α} (hm : DLawful m) :
    DLawful (wrapD w m) := by
  constructor
  · intro bs a k h
    simp only [wrapD] at h
    cases hmr : m bs with
    | needMore => rw [hmr] at h; simp only [] at h; cases h
    | fail e => rw [hmr] at h; simp only [] at h; cases h
    | done a2 k2 =>
      rw [hmr] at h
      simp only [] at h
      cases h
      obtain ⟨hk, hext⟩ := hm.1 bs a k hmr
      refine ⟨hk, ?_⟩
      intro ext
      simp only [wrapD]
      rw [hext ext]
  · intro bs e h
    simp only [wrapD] at h
    cases hmr : m bs with
    | needMore => rw [hmr] at h; simp only [] at h; cases h
    | fail e2 =>
      rw [hmr] at h
      simp only [] at h
      cases h
      intro ext
      simp only [wrapD]
      rw [hm.2 bs e2 hmr ext]
    | done a2 k2 => rw [hmr] at h; simp only [] at h; cases h

theorem dlawful_readBE (cap : Option Nat) (n : Nat) : DLawful (readBE cap n) :=
  dlawful_bind (dlawful_readBytes cap n) (fun _ => dlawful_pure _)

/-- A lawful decoder that succeeds on `bs` consuming all of it gives the same
result on any extension of `bs` (resumption after appending bytes). -/
theorem dlawful_extend {α : Type} {m : DecM α} (hm : DLawful m)
    {bs : List Nat} {a : α} (h : m bs = .done a bs.length) (ext : List Nat) :
    m (bs ++ ext) = .done a bs.length := by
  obtain ⟨_, hext⟩ := hm.1 bs a bs.length h
  have := hext ext
  rwa [List.take_length] at this

/-- Resumability core: a lawful decoder that succeeds consuming `k` bytes
reports NeedMore on every shorter portion of the stream. -/
theorem dlawful_prefix_needMore {α : Type} {m : DecM α} (hm : DLawful m)
    {bs : List Nat} {a : α} {k : Nat} (h : m bs = .done a k) {j : Nat} (hj : j < k) :
    m (bs.take j) = .needMore := by
  obtain ⟨hk, _⟩ := hm.1 bs a k h
  cases hr : m (bs.take j) with
  | needMore => rfl
  | fail e =>
    exfalso
    have := hm.2 _ e hr (bs.drop j)
    rw [List.take_append_drop] at this
    rw [h] at this
    cases this
  | done a2 k2 =>
    exfalso
    obtain ⟨hk2, hext2⟩ := hm.1 _ a2 k2 hr
    have hk2j : k2 ≤ j := by
      have := List.length_take j bs
      omega
    have : m ((bs.take j).take k2 ++ bs.drop k2) = .done a2 k2 := hext2 (bs.drop k2)
    rw [List.take_take, min_eq_left hk2j, List.take_append_drop] at this
    rw [h] at this
    cases this
    omega

/-! ## The data model: field categories, attributes and values

A field type is the declared category together with the attributes the
encoders query through PacketFieldType.GetAttribute: MaxValue for UINT and
INT, Bits for FLOAT, and per GROUP member ExplicitTag and Optional.  A
`none` attribute means the attribute is absent and the encoder default
applies.  A field value is the content of the data slot, with UNSET as its
own sentinel value. -/

inductive FieldTy where
  | uint (maxValue : Option Nat)
  | int (maxValue : Option Nat)
  | bool
  | float (bits : Option Nat)
  | str
  | buffer
  | list (elem : FieldTy)
  | group (fields : List (String × Option Nat × Bool × FieldTy))

/-- One GROUP member declaration: name, ExplicitTag attribute, Optional
attribute, declared field type. -/
abbrev Member := String × Option Nat × Bool × FieldTy

def mName (f : Member) : String := f.1

def mTag (f : Member) : Option Nat := f.2.1

def mOpt (f : Member) : Bool := f.2.2.1

def mTy (f : Member) : FieldTy := f.2.2.2

/-- Content of a field's data slot. -/
inductive FieldVal where
  | unset
  | uintV (n : Nat)
  | intV (i : Int)
  | boolV (b : Bool)
  | floatV (pattern : Nat)
  | stringV (s : String)
  | bufferV (bs : List Nat)
  | listV (vs : List FieldVal)
  | groupV (vs : List FieldVal)

/-! ## Width selection (UintEncoder, IntEncoder, FloatEncoder) -/

namespace UintEncoder

/-- UintEncoder.SIZE_TO_PACKCODE with pack codes B, H, I, Q modelled by
their byte widths 1, 2, 4, 8. -/
def SIZE_TO_PACKCODE : List (Nat × Nat) :=
  [(2 ^ 8, 1), (2 ^ 16, 2), (2 ^ 32, 4), (2 ^ 64, 8)]

def DEFAULT_MAXVALUE : Nat := 2 ^ 32 - 1

/-- The Python for-loop with break: scan the table, stopping at the first
bound exceeding maxValue; the loop variables keep their last values. -/
def packCodeLoop : List (Nat × Nat) → Nat → Nat × Nat → Nat × Nat
  | [], _, last => last
  | (pm, pc) :: rest, mv, _ => if mv < pm then (pm, pc) else packCodeLoop rest mv (pm, pc)

/-- UintEncoder._maxValueToPackCode: after the loop, a maxValue at or above
the last bound raises PacketEncodingError. -/
def maxValueToPackCode (maxValue : Nat) : Except Err Nat :=
  let r := packCodeLoop SIZE_TO_PACKCODE maxValue (0, 0)
  if maxValue ≥ r.1 then .error .uintSizeError else .ok r.2

/-- UintEncoder._getPackCode: the MaxValue attribute with its default. -/
def getPackCode (mvo : Option Nat) : Except Err Nat :=
  maxValueToPackCode (mvo.getD DEFAULT_MAXVALUE)

end UintEncoder

namespace IntEncoder

/-- IntEncoder.SIZE_TO_PACKCODE: the same bounds with the signed pack codes
b, h, i, q, modelled by their byte widths. -/
def SIZE_TO_PACKCODE : List (Nat × Nat) := UintEncoder.SIZE_TO_PACKCODE

/-- IntEncoder inherits _getPackCode from UintEncoder, with its own table
(same bounds and widths, signed codes). -/
def getPackCode (mvo : Option Nat) : Except Err Nat := UintEncoder.getPackCode mvo

end IntEncoder

namespace FloatEncoder

def DEFAULT_BITS : Nat := 32

/-- FloatEncoder.SIZE_TO_PACKCODE_MAP lookup: 32 bits maps to pack code f
(4 bytes), 64 to d (8 bytes); any other Bits value raises KeyError. -/
def getPackCode (bo : Option Nat) : Except Err Nat :=
  if bo.getD DEFAULT_BITS = 32 then .ok 4
  else if bo.getD DEFAULT_BITS = 64 then .ok 8
  else .error .keyError

end FloatEncoder

namespace StringEncoder

def STRING_LENGTH_BYTES : Nat := 2

def MAX_LENGTH : Nat := 2 ^ (8 * STRING_LENGTH_BYTES)

/-- StringEncoder.encode: strLen is len(data), the number of code points.
The length check compares that count against MAX_LENGTH; the pack format
`!H{strLen}s` then packs the count as a 2-byte big-endian integer and
truncates or zero-pads the UTF-8 bytes to strLen bytes. -/
def encode (s : String) : Except Err (List Nat) :=
  if s.length > MAX_LENGTH then .error .stringTooLong
  else
    match packNat 2 s.length with
    | .error e => .error e
    | .ok pre => .ok (pre ++ padTrunc s.length (strBytes s))

end StringEncoder

namespace BufferEncoder

def BUFFER_LENGTH_BYTES : Nat := 8

def MAX_LENGTH : Nat := 2 ^ (8 * BUFFER_LENGTH_BYTES)

/-- BufferEncoder.encode: pack format `!Q{bufLen}s` with bufLen = len(data),
so the length prefix and the packed bytes agree exactly. -/
def encode (bs : List Nat) : Except Err (List Nat) :=
  if bs.length > MAX_LENGTH then .error .bufferTooLong
  else
    match packNat 8 bs.length with
    | .error e => .error e
    | .ok pre => .ok (pre ++ bs)

end BufferEncoder

/-! ## Tag assignment (PacketFieldsEncoder._processFields) -/

/-- The Python while-loop `while autoTag in fieldToTag.inverse(): autoTag += 1`
with enough fuel to reach the first free tag. -/
def nextFreeAux : Nat → List Nat → Nat → Nat
  | 0, _, a => a
  | fuel + 1, used, a => if a ∈ used then nextFreeAux fuel used (a + 1) else a

def nextFree (used : List Nat) (a : Nat) : Nat := nextFreeAux (used.length + 1) used a

/-- Forward lookup in the name-tag bijection (fieldToTag[name]). -/
def lookupName : List (String × Nat) → String → Option Nat
  | [], _ => none
  | (n, t) :: rest, name => if n = name then some t else lookupName rest name

/-- Inverse lookup in the name-tag bijection (fieldToTag.inverse()[tag]). -/
def lookupTag : List (String × Nat) → Nat → Option String
  | [], _ => none
  | (n, t) :: rest, tag => if t = tag then some n else lookupTag rest tag

/-- PacketFieldsEncoder._processFields: walk the declarations in order,
failing on a repeated name or a taken explicit tag, and assigning each
tagless field the first free tag at or after the running autoTag. -/
def processFieldsGo : List Member → Nat → List (String × Nat) →
    Except Err (List (String × Nat))
  | [], _, acc => .ok acc
  | f :: rest, autoTag, acc =>
    if acc.any (fun p => p.1 = mName f) then .error .duplicateField
    else
      match mTag f with
      | some t =>
        if acc.any (fun p => p.2 = t) then .error .duplicateExplicitTag
        else processFieldsGo rest autoTag (acc ++ [(mName f, t)])
      | none =>
        processFieldsGo rest (nextFree (acc.map Prod.snd) autoTag)
          (acc ++ [(mName f, nextFree (acc.map Prod.snd) autoTag)])

def processFields (fields : List Member) : Except Err (List (String × Nat)) :=
  processFieldsGo fields 0 []

/-- The Python test `rawField.data() == PacketFieldType.UNSET`. -/
def isUnset : FieldVal → Bool
  | .unset => true
  | _ => false

/-- First pass of PacketFieldsEncoder.encode: count the fields that have
data, failing on the first UNSET non-optional field. -/
def presentCount : List Member → List FieldVal → Except Err Nat
  | [], _ => .ok 0
  | _ :: _, [] => .error .structError
  | f :: fs, v :: vs =>
    if isUnset v then
      if mOpt f then presentCount fs vs
      else .error (.fieldUnsetNotOptional (mName f))
    else
      match presentCount fs vs with
      | .error e => .error e
      | .ok n => .ok (n + 1)

/-- Positional lookup of a declared member by name
(PacketFields.__getrawfield__). -/
def findMember : List Member → String → Nat → Option (Nat × Member)
  | [], _, _ => none
  | f :: fs, name, i => if mName f = name then some (i, f) else findMember fs name (i + 1)

theorem findMember_mem {fs : List Member} {name : String} {i j : Nat} {f : Member}
    (h : findMember fs name i = some (j, f)) : f ∈ fs := by
  induction fs generalizing i with
  | nil => simp [findMember] at h
  | cons g gs ih =>
    rw [findMember] at h
    by_cases hg : mName g = name
    · rw [if_pos hg] at h
      cases h
      exact List.mem_cons_self _ _
    · rw [if_neg hg] at h
      exact List.mem_cons_of_mem g (ih h)

/-! ## Encoding (PlaygroundStandardPacketEncoder.encode dispatch) -/

mutual

/-- The top-level encode dispatched through the registered type encoders:
UintEncoder, IntEncoder, BoolEncoder, FloatEncoder, StringEncoder,
BufferEncoder, ListEncoder and PacketFieldsEncoder.  A data slot whose
content does not fit the declared category makes struct.pack raise.
FLOAT data is modelled as the IEEE-754 bit pattern of the declared width
(the conversion between a Python float and that pattern is struct's and is
not reflected further). -/
def encodeField : FieldTy → FieldVal → Except Err (List Nat)
  | .uint mvo, v =>
    match UintEncoder.getPackCode mvo with
    | .error e => .error e
    | .ok w =>
      match v with
      | .uintV n => packNat w n
      | _ => .error .structError
  | .int mvo, v =>
    match IntEncoder.getPackCode mvo with
    | .error e => .error e
    | .ok w =>
      match v with
      | .intV i => packInt w i
      | _ => .error .structError
  | .bool, v =>
    match v with
    | .boolV b => .ok [if b then 1 else 0]
    | _ => .error .structError
  | .float bo, v =>
    match FloatEncoder.getPackCode bo with
    | .error e => .error e
    | .ok w =>
      match v with
      | .floatV p => packNat w p
      | _ => .error .structError
  | .str, v =>
    match v with
    | .stringV s => StringEncoder.encode s
    | _ => .error .structError
  | .buffer, v =>
    match v with
    | .bufferV bs => BufferEncoder.encode bs
    | _ => .error .structError
  | .list e, v =>
    match v with
    | .listV vs =>
      (match packNat 2 vs.length with
       | .error er => .error er
       | .ok pre =>
         match encodeListElems e vs with
         | .error er => .error er
         | .ok body => .ok (pre ++ body))
    | _ => .error .structError
  | .group fs, v =>
    match v with
    | .groupV vs =>
      (match processFields fs with
       | .error er => .error er
       | .ok m =>
         match presentCount fs vs with
         | .error er => .error er
         | .ok cnt =>
           match packNat 2 cnt with
           | .error er => .error er
           | .ok pre =>
             match encodeMembers m fs vs with
             | .error er => .error er
             | .ok body => .ok (pre ++ body))
    | _ => .error .structError
termination_by ty v => (sizeOf ty, 0)

/-- ListEncoder.encode body: each element through the top-level encoder. -/
def encodeListElems : FieldTy → List FieldVal → Except Err (List Nat)
  | _, [] => .ok []
  | e, v :: rest =>
    match encodeField e v with
    | .error er => .error er
    | .ok bs =>
      match encodeListElems e rest with
      | .error er => .error er
      | .ok rest2 => .ok (bs ++ rest2)
termination_by e vs => (sizeOf e, 1 + vs.length)

/-- Second pass of PacketFieldsEncoder.encode: skip fields without data,
write each present field as its 2-byte tag followed by its encoding, and
wrap any failure in PacketEncodingError naming the field. -/
def encodeMembers : List (String × Nat) → List Member → List FieldVal →
    Except Err (List Nat)
  | _, [], _ => .ok []
  | _, _ :: _, [] => .error .structError
  | m, (fname, _, fopt, fty) :: fs, v :: vs =>
    if isUnset v then
      if fopt then encodeMembers m fs vs
      else .error (.fieldUnsetNotOptional fname)
    else
      match
        (match lookupName m fname with
         | none => .error .keyError
         | some t =>
           match packNat 2 t with
           | .error er => .error er
           | .ok tagBytes =>
             match encodeField fty v with
             | .error er => .error er
             | .ok venc => .ok (tagBytes ++ venc) : Except Err (List Nat)) with
      | .error er => .error (.fieldWrapped fname er)
      | .ok bs =>
        match encodeMembers m fs vs with
        | .error er => .error er
        | .ok rest => .ok (bs ++ rest)
termination_by m fs vs => (sizeOf fs, 0)

end

/-! ## Values the codec represents exactly

The encoders accept some values they cannot reproduce (most prominently a
string with non-ASCII characters, which StringEncoder truncates to its
code-point count).  `ExactB` singles out the data-slot contents whose wire
image determines them: scalars within the width selected from the declared
attributes, ASCII strings below the length bound, byte buffers, lists and
groups of such values with UNSET only at Optional members. -/

mutual

def ExactB : FieldTy → FieldVal → Bool
  | .uint mvo, .uintV n =>
    match UintEncoder.getPackCode mvo with
    | .ok w => decide (n < 2 ^ (8 * w))
    | .error _ => false
  | .int mvo, .intV i =>
    match IntEncoder.getPackCode mvo with
    | .ok w => decide (-(2 ^ (8 * w - 1) : Int) ≤ i ∧ i < 2 ^ (8 * w - 1))
    | .error _ => false
  | .bool, .boolV _ => true
  | .float bo, .floatV p =>
    match FloatEncoder.getPackCode bo with
    | .ok w => decide (p < 2 ^ (8 * w))
    | .error _ => false
  | .str, .stringV s =>
    decide (s.length < 2 ^ 16) && s.data.all (fun c => decide (c.toNat < 128))
  | .buffer, .bufferV bs =>
    decide (bs.length < 2 ^ 64) && bs.all (fun b => decide (b < 256))
  | .list e, .listV vs => decide (vs.length < 2 ^ 16) && ExactList e vs
  | .group fs, .groupV vs =>
    (match processFields fs with
     | .error _ => false
     | .ok m =>
       decide (fs.length < 2 ^ 16) && m.all (fun p => decide (p.2 < 2 ^ 16)) &&
         ExactMembers fs vs)
  | _, _ => false
termination_by ty v => (sizeOf ty, 0)

def ExactList : FieldTy → List FieldVal → Bool
  | _, [] => true
  | e, v :: vs => ExactB e v && ExactList e vs
termination_by e vs => (sizeOf e, 1 + vs.length)

def ExactMembers : List Member → List FieldVal → Bool
  | [], [] => true
  | [], _ :: _ => false
  | _ :: _, [] => false
  | (_, _, fopt, fty) :: fs, v :: vs =>
    (if isUnset v then fopt else ExactB fty v) && ExactMembers fs vs
termination_by fs vs => (sizeOf fs, 0)

end

/-! ## Decoding (PlaygroundStandardPacketEncoder.decodeIterator dispatch) -/

theorem member_ty_sizeOf_lt {f : Member} {fs : List Member} (h : f ∈ fs) :
    sizeOf (mTy f) < sizeOf fs := by
  have h1 : sizeOf f < sizeOf fs := List.sizeOf_lt_of_mem h
  have h2 : sizeOf (mTy f) < sizeOf f := by
    obtain ⟨n, et, op, ty⟩ := f
    simp [mTy]
    omega
  omega

mutual

/-- The top-level resumable decode dispatched through the registered type
decoders, parameterised by the adapter's max-size cap (None until the packet
decoder locks a frame). -/
def decodeField (cap : Option Nat) : FieldTy → DecM FieldVal
  | .uint mvo =>
    match UintEncoder.getPackCode mvo with
    | .error e => failD e
    | .ok w => bindD (readBytes cap w) (fun l => pureD (.uintV (beVal l)))
  | .int mvo =>
    match IntEncoder.getPackCode mvo with
    | .error e => failD e
    | .ok w => bindD (readBytes cap w) (fun l => pureD (.intV (sintOfBytes w (beVal l))))
  | .bool =>
    bindD (readBytes cap 1) (fun l => pureD (.boolV (l.headD 0 != 0)))
  | .float bo =>
    match FloatEncoder.getPackCode bo with
    | .error e => failD e
    | .ok w => bindD (readBytes cap w) (fun l => pureD (.floatV (beVal l)))
  | .str =>
    bindD (readBytes cap 2) (fun lenB =>
      bindD (readBytes cap (beVal lenB)) (fun sb =>
        match utf8Decode sb with
        | some cs => pureD (.stringV (String.mk cs))
        | none => failD .unicodeDecodeError))
  | .buffer =>
    bindD (readBytes cap 8) (fun lenB =>
      bindD (readBytes cap (beVal lenB)) (fun bb => pureD (.bufferV bb)))
  | .list e =>
    bindD (readBytes cap 2) (fun lenB =>
      bindD (decodeListLoop cap e (beVal lenB) 0 []) (fun vs => pureD (.listV vs)))
  | .group fs =>
    match processFields fs with
    | .error e => failD e
    | .ok m =>
      bindD (readBytes cap 2) (fun cntB =>
        bindD (decodeGroupLoop cap fs m (beVal cntB) (List.replicate fs.length FieldVal.unset))
          (fun vals => pureD (.groupV vals)))
termination_by ty => (sizeOf ty, 0)

/-- ListEncoder.decodeIterator body: append an UNSET placeholder and fill it
through the top-level decoder, wrapping per-element failures with the index. -/
def decodeListLoop (cap : Option Nat) (e : FieldTy) : Nat → Nat → List FieldVal →
    DecM (List FieldVal)
  | 0, _, acc => pureD acc
  | n + 1, i, acc =>
    bindD (wrapD (fun _ => Err.listWrapped i) (decodeField cap e)) (fun v =>
      decodeListLoop cap e n (i + 1) (acc ++ [v]))
termination_by n i acc => (sizeOf e, 1 + n)

/-- PacketFieldsEncoder.decodeIterator body: read each entry's tag, resolve
it through the inverse bijection (KeyError when absent), and fill the named
raw field through the top-level decoder, wrapping its failures with the
field name. -/
def decodeGroupLoop (cap : Option Nat) (fs : List Member) (m : List (String × Nat)) :
    Nat → List FieldVal → DecM (List FieldVal)
  | 0, vals => pureD vals
  | n + 1, vals =>
    bindD (readBytes cap 2) (fun tagB =>
      match lookupTag m (beVal tagB) with
      | none => failD .keyError
      | some name =>
        match hfm : findMember fs name 0 with
        | none => failD .keyError
        | some (i, f) =>
          bindD (wrapD (Err.fieldWrapped name) (decodeField cap (mTy f)))
            (fun v => decodeGroupLoop cap fs m n (vals.set i v)))
termination_by n vals => (sizeOf fs, 1 + n)
decreasing_by
  all_goals simp_wf
  · exact Prod.Lex.left _ _ (member_ty_sizeOf_lt (findMember_mem hfm))
  · exact Prod.Lex.right _ (by omega)

end

/-! ## The framed packet encoder (PacketEncoder) -/

/-- What the packet encoder reads off a NamedPacketType: the definition
identifier, the definition version string, and the FIELDS declaration of
the packet body. -/
structure PacketSchema where
  name : String
  version : String
  fields : List Member

/-- The length-check equation tested by PacketEncoder.decodeIterator at
position `p`: the first u64 equals the second u64 XOR 0xFFFFFFFFFFFFFFFF. -/
def windowOk (buf : List Nat) (p : Nat) : Bool :=
  beVal ((buf.drop p).take 8) == Nat.xor (beVal ((buf.drop (p + 8)).take 8)) 0xFFFFFFFFFFFFFFFF

namespace PacketEncoder

/-- PacketEncoder.encode: pack the frame with zero placeholders for the two
length fields (format `!QQB{n}sB{m}s`, so identifier and version byte
lengths must fit one byte), encode the field-group body, then seek back and
patch in the real length and its complement. -/
def encode (schema : PacketSchema) (v : FieldVal) : Except Err (List Nat) :=
  let packetDefEncoded := strBytes schema.name
  let packetVerEncoded := strBytes schema.version
  if 256 ≤ packetDefEncoded.length ∨ 256 ≤ packetVerEncoded.length then .error .structError
  else
    match encodeField (.group schema.fields) v with
    | .error e => .error e
    | .ok body =>
      let written := beBytes 8 0 ++ beBytes 8 0 ++ [packetDefEncoded.length] ++ packetDefEncoded
        ++ [packetVerEncoded.length] ++ packetVerEncoded ++ body
      if 2 ^ 64 ≤ written.length then .error .structError
      else
        .ok (beBytes 8 written.length ++ beBytes 8 (Nat.xor written.length 0xFFFFFFFFFFFFFFFF)
          ++ written.drop 16)

/-- The resync loop of PacketEncoder.decodeIterator: starting from `p`, wait
for 16 readable bytes, and on a length-check mismatch advance the start
position by one byte, rewind the stream there, and retry.  Returns the
position at which the decoder locks, or none when the loop is left waiting
for more stream. -/
def findLock (buf : List Nat) (p : Nat) : Option Nat :=
  if h : p + 16 ≤ buf.length then
    if windowOk buf p then some p else findLock buf (p + 1)
  else none
termination_by buf.length - p

/-- Result of one framed-packet decode: the decoded packet body and the
final stream position. -/
inductive PRes where
  | needMore
  | fail (e : Err)
  | done (v : FieldVal) (pos : Nat)

/-- PacketEncoder.decodeIterator after the lock: cap the adapter at the
frame length, read the length-prefixed identifier and version, resolve the
definition, and when it resolves run the field-group decoder on the body.
Modelled from the spec: the definitions store consulted through
`basePacketType.DEFINITIONS_STORE.getDefinition(name, version)` and the
version parse `PacketDefinitionVersion.FromString` live outside this file's
source and are abstracted as a lookup keyed by the two decoded strings. -/
def postLock (lookup : String → String → Option (List Member)) (packetLength : Nat) :
    DecM (Option FieldVal) :=
  bindD (readBE (some packetLength) 1) (fun nameLen =>
    bindD (readBytes (some packetLength) nameLen) (fun nameB =>
      match utf8Decode nameB with
      | none => failD .unicodeDecodeError
      | some nameCs =>
        bindD (readBE (some packetLength) 1) (fun verLen =>
          bindD (readBytes (some packetLength) verLen) (fun verB =>
            match utf8Decode verB with
            | none => failD .unicodeDecodeError
            | some verCs =>
              match lookup (String.mk nameCs) (String.mk verCs) with
              | none => pureD none
              | some fields =>
                bindD (decodeField (some packetLength) (.group fields))
                  (fun v => pureD (some v))))))

/-- PacketEncoder.decodeIterator from stream position `start`: resync until
the length check holds, decode the frame, then the frame-tail fixup — a
used-bytes mismatch or an unresolved packet type raises after the stream is
advanced. -/
def decodeFrom (lookup : String → String → Option (List Member)) (buf : List Nat)
    (start : Nat) : PRes :=
  match findLock buf start with
  | none => .needMore
  | some p =>
    let packetLength := beVal ((buf.drop p).take 8)
    match postLock lookup packetLength ((buf.drop p).drop 16) with
    | .needMore => .needMore
    | .fail e => .fail e
    | .done ov k =>
      if 16 + k ≠ packetLength then .fail .frameError
      else
        match ov with
        | some v => .done v (p + packetLength)
        | none => .fail .frameError

end PacketEncoder

/-! ## Width-selection lemmas -/

theorem UintEncoder.maxValueToPackCode_eq (mv : Nat) :
    UintEncoder.maxValueToPackCode mv =
      if mv < 2 ^ 8 then .ok 1
      else if mv < 2 ^ 16 then .ok 2
      else if mv < 2 ^ 32 then .ok 4
      else if mv < 2 ^ 64 then .ok 8
      else .error .uintSizeError := by
  simp only [UintEncoder.maxValueToPackCode, UintEncoder.SIZE_TO_PACKCODE,
    UintEncoder.packCodeLoop]
  norm_num
  split_ifs <;> first | rfl | omega

theorem UintEncoder.getPackCode_width {mvo : Option Nat} {w : Nat}
    (h : UintEncoder.getPackCode mvo = .ok w) :
    w ∈ [1, 2, 4, 8] ∧ mvo.getD UintEncoder.DEFAULT_MAXVALUE < 2 ^ (8 * w) := by
  rw [UintEncoder.getPackCode, UintEncoder.maxValueToPackCode_eq] at h
  split_ifs at h <;> cases h <;> simp_all <;> omega

/-! ## Tag-assignment lemmas -/

theorem filter_imp_length_le {p q : Nat → Bool} (h : ∀ x, p x = true → q x = true)
    (l : List Nat) : (l.filter p).length ≤ (l.filter q).length := by
  induction l with
  | nil => simp
  | cons x xs ih =>
    by_cases hp : p x = true
    · rw [List.filter_cons_of_pos hp, List.filter_cons_of_pos (h x hp)]
      simpa using ih
    · rw [List.filter_cons_of_neg (by simp_all)]
      by_cases hq : q x = true
      · rw [List.filter_cons_of_pos hq]
        simp
        omega
      · rw [List.filter_cons_of_neg (by simp_all)]
        exact ih

theorem filter_ge_length_lt {used : List Nat} {a : Nat} (h : a ∈ used) :
    (used.filter (fun x => a + 1 ≤ x)).length < (used.filter (fun x => a ≤ x)).length := by
  induction used with
  | nil => simp at h
  | cons x xs ih =>
    rcases List.mem_cons.1 h with rfl | hxs
    · rw [List.filter_cons_of_neg (by simp), List.filter_cons_of_pos (by simp)]
      have := filter_imp_length_le (p := fun x => a + 1 ≤ x) (q := fun x => a ≤ x)
        (by intro x hx; simp at hx; simp; omega) xs
      simp
      omega
    · by_cases hx : a ≤ x
      · by_cases hx1 : a + 1 ≤ x
        · rw [List.filter_cons_of_pos (by simp; omega), List.filter_cons_of_pos (by simp; omega)]
          simpa using ih hxs
        · rw [List.filter_cons_of_neg (by simp; omega), List.filter_cons_of_pos (by simp; omega)]
          have := filter_imp_length_le (p := fun x => a + 1 ≤ x) (q := fun x => a ≤ x)
            (by intro x hx; simp at hx; simp; omega) xs
          have hih := ih hxs
          simp only [List.length_cons]
          omega
      · rw [List.filter_cons_of_neg (by simp; omega), List.filter_cons_of_neg (by simp; omega)]
        exact ih hxs

theorem nextFreeAux_spec : ∀ (fuel : Nat) (used : List Nat) (a : Nat),
    (used.filter (fun x => a ≤ x)).length < fuel →
    nextFreeAux fuel used a ∉ used ∧ a ≤ nextFreeAux fuel used a ∧
      ∀ b, a ≤ b → b < nextFreeAux fuel used a → b ∈ used := by
  intro fuel
  induction fuel with
  | zero => intro used a h; omega
  | succ fuel ih =>
    intro used a h
    rw [nextFreeAux]
    by_cases ha : a ∈ used
    · rw [if_pos ha]
      have hlt := filter_ge_length_lt ha
      obtain ⟨h1, h2, h3⟩ := ih used (a + 1) (by omega)
      refine ⟨h1, by omega, ?_⟩
      intro b hb hblt
      by_cases hba : b = a
      · exact hba ▸ ha
      · exact h3 b (by omega) hblt
    · rw [if_neg ha]
      exact ⟨ha, Nat.le_refl a, by omega⟩

theorem nextFree_spec (used : List Nat) (a : Nat) :
    nextFree used a ∉ used ∧ a ≤ nextFree used a ∧
      ∀ b, a ≤ b → b < nextFree used a → b ∈ used := by
  apply nextFreeAux_spec
  have := List.length_filter_le (fun x => a ≤ x) used
  omega

/-- One-step helper: appending a fresh pair keeps the two nodup invariants. -/
theorem nodup_concat_map {acc : List (String × Nat)} {x : String × Nat}
    (h1 : (acc.map Prod.fst).Nodup) (hx : x.1 ∉ acc.map Prod.fst) :
    ((acc ++ [x]).map Prod.fst).Nodup := by
  rw [List.map_append, List.nodup_append]
  refine ⟨h1, by simp, ?_⟩
  intro a ha hb
  simp at hb
  subst hb
  exact hx ha

theorem nodup_concat_map_snd {acc : List (String × Nat)} {x : String × Nat}
    (h1 : (acc.map Prod.snd).Nodup) (hx : x.2 ∉ acc.map Prod.snd) :
    ((acc ++ [x]).map Prod.snd).Nodup := by
  rw [List.map_append, List.nodup_append]
  refine ⟨h1, by simp, ?_⟩
  intro a ha hb
  simp at hb
  subst hb
  exact hx ha

/-- Full description of a successful _processFields run: the result extends
the accumulator by one pair per declaration in order, names and tags are
each pairwise distinct, explicit tags are kept, and an auto-assigned tag is
the smallest value not used by any earlier pair, given the invariant that
every value below the running autoTag is already used. -/
theorem processFieldsGo_spec :
    ∀ (fs : List Member) (autoTag : Nat) (acc res : List (String × Nat)),
    processFieldsGo fs autoTag acc = .ok res →
    (acc.map Prod.fst).Nodup →
    (acc.map Prod.snd).Nodup →
    (∀ t, t < autoTag → t ∈ acc.map Prod.snd) →
    res.length = acc.length + fs.length ∧
    res.take acc.length = acc ∧
    (res.map Prod.fst).Nodup ∧
    (res.map Prod.snd).Nodup ∧
    (∀ i f, fs[i]? = some f →
      ∃ p, res[acc.length + i]? = some p ∧ p.1 = mName f ∧
        (∀ t, mTag f = some t → p.2 = t) ∧
        (mTag f = none →
          p.2 ∉ (res.take (acc.length + i)).map Prod.snd ∧
          ∀ u, u < p.2 → u ∈ (res.take (acc.length + i)).map Prod.snd)) := by
  intro fs
  induction fs with
  | nil =>
    intro autoTag acc res h hn ht hinv
    rw [processFieldsGo] at h
    cases h
    refine ⟨by simp, List.take_length acc, hn, ht, ?_⟩
    intro i f hf
    simp at hf
  | cons f fs ih =>
    intro autoTag acc res h hn ht hinv
    rw [processFieldsGo] at h
    by_cases hname : acc.any (fun p => p.1 = mName f) = true
    · rw [if_pos hname] at h
      cases h
    · rw [if_neg hname] at h
      have hname2 : mName f ∉ acc.map Prod.fst := by
        intro hmem
        rw [List.mem_map] at hmem
        obtain ⟨p, hp, hp1⟩ := hmem
        apply hname
        rw [List.any_eq_true]
        exact ⟨p, hp, by simp [hp1]⟩
      cases htag : mTag f with
      | some t =>
        rw [htag] at h
        simp only [] at h
        by_cases htaken : acc.any (fun p => p.2 = t) = true
        · rw [if_pos htaken] at h
          cases h
        · rw [if_neg htaken] at h
          have htaken2 : t ∉ acc.map Prod.snd := by
            intro hmem
            rw [List.mem_map] at hmem
            obtain ⟨p, hp, hp1⟩ := hmem
            apply htaken
            rw [List.any_eq_true]
            exact ⟨p, hp, by simp [hp1]⟩
          obtain ⟨hlen, htake, hn2, ht2, hidx⟩ := ih autoTag (acc ++ [(mName f, t)]) res h
            (nodup_concat_map hn hname2) (nodup_concat_map_snd ht htaken2)
            (by
              intro u hu
              rw [List.map_append]
              exact List.mem_append_left _ (hinv u hu))
          rw [List.length_append] at hlen htake
          simp only [List.length_singleton] at hlen htake
          simp only [List.length_append, List.length_singleton] at hidx
          refine ⟨by simp; omega, ?_, hn2, ht2, ?_⟩
          · have : res.take acc.length = (res.take (acc.length + 1)).take acc.length := by
              rw [List.take_take]
              congr 1
              omega
            rw [this, htake, List.take_append_of_le_length (by omega)]
            simp
          · intro i g hg
            cases i with
            | zero =>
              refine ⟨(mName f, t), ?_, ?_⟩
              · have h1 : res[acc.length]? = (res.take (acc.length + 1))[acc.length]? := by
                  rw [List.getElem?_take]
                  simp
                rw [Nat.add_zero, h1, htake, List.getElem?_concat_length]
              · simp at hg
                subst hg
                refine ⟨rfl, ?_, ?_⟩
                · intro u hu
                  rw [htag] at hu
                  cases hu
                  rfl
                · intro hnone
                  rw [htag] at hnone
                  cases hnone
            | succ i =>
              obtain ⟨p, hp, hp1, hp2, hp3⟩ := hidx i g (by simpa using hg)
              refine ⟨p, ?_, hp1, hp2, ?_⟩
              · rw [← hp]
                congr 1
                omega
              · intro hnone
                obtain ⟨ha, hb⟩ := hp3 hnone
                constructor
                · intro hmem
                  apply ha
                  have : acc.length + 1 + i = acc.length + (i + 1) := by omega
                  rwa [this]
                · intro u hu
                  have : acc.length + 1 + i = acc.length + (i + 1) := by omega
                  rw [this] at hb
                  exact hb u hu
      | none =>
        rw [htag] at h
        simp only [] at h
        obtain ⟨hfree, hge, hsmall⟩ := nextFree_spec (acc.map Prod.snd) autoTag
        obtain ⟨hlen, htake, hn2, ht2, hidx⟩ := ih (nextFree (acc.map Prod.snd) autoTag)
          (acc ++ [(mName f, nextFree (acc.map Prod.snd) autoTag)]) res h
          (nodup_concat_map hn hname2) (nodup_concat_map_snd ht hfree)
          (by
            intro u hu
            rw [List.map_append]
            by_cases hua : u < autoTag
            · exact List.mem_append_left _ (hinv u hua)
            · exact List.mem_append_left _ (hsmall u (by omega) hu))
        rw [List.length_append] at hlen htake
        simp only [List.length_singleton] at hlen htake
        simp only [List.length_append, List.length_singleton] at hidx
        have htakeacc : res.take acc.length = acc := by
          have h0 : res.take acc.length = (res.take (acc.length + 1)).take acc.length := by
            rw [List.take_take]
            congr 1
            omega
          rw [h0, htake, List.take_append_of_le_length (by omega)]
          simp
        refine ⟨by simp; omega, htakeacc, hn2, ht2, ?_⟩
        intro i g hg
        cases i with
        | zero =>
          refine ⟨(mName f, nextFree (acc.map Prod.snd) autoTag), ?_, ?_⟩
          · have h1 : res[acc.length]? = (res.take (acc.length + 1))[acc.length]? := by
              rw [List.getElem?_take]
              simp
            rw [Nat.add_zero, h1, htake, List.getElem?_concat_length]
          · simp at hg
            subst hg
            refine ⟨rfl, ?_, ?_⟩
            · intro u hu
              rw [htag] at hu
              cases hu
            · intro _
              rw [Nat.add_zero, htakeacc]
              refine ⟨hfree, ?_⟩
              intro u hu
              by_cases hua : u < autoTag
              · exact hinv u hua
              · exact hsmall u (by omega) hu
        | succ i =>
          obtain ⟨p, hp, hp1, hp2, hp3⟩ := hidx i g (by simpa using hg)
          refine ⟨p, ?_, hp1, hp2, ?_⟩
          · rw [← hp]
            congr 1
            omega
          · intro hnone
            obtain ⟨ha, hb⟩ := hp3 hnone
            constructor
            · intro hmem
              apply ha
              have harr : acc.length + 1 + i = acc.length + (i + 1) := by omega
              rwa [harr]
            · intro u hu
              have harr : acc.length + 1 + i = acc.length + (i + 1) := by omega
              rw [harr] at hb
              exact hb u hu

theorem mem_of_getElemQ {α : Type} {l : List α} {n : Nat} {a : α} (h : l[n]? = some a) :
    a ∈ l := by
  rw [List.getElem?_eq_some] at h
  obtain ⟨hlt, rfl⟩ := h
  exact List.getElem_mem hlt

/-- The top-level consequence of `processFieldsGo_spec` for _processFields:
the bijection lists one pair per declaration, in order, names and tags both
without repetition, explicit tags kept, auto tags smallest-unused. -/
theorem processFields_spec {fs : List Member} {m : List (String × Nat)}
    (h : processFields fs = .ok m) :
    m.length = fs.length ∧
    (m.map Prod.fst).Nodup ∧
    (m.map Prod.snd).Nodup ∧
    (∀ i f, fs[i]? = some f →
      ∃ p, m[i]? = some p ∧ p.1 = mName f ∧
        (∀ t, mTag f = some t → p.2 = t) ∧
        (mTag f = none →
          p.2 ∉ (m.take i).map Prod.snd ∧
          ∀ u, u < p.2 → u ∈ (m.take i).map Prod.snd)) := by
  obtain ⟨hlen, _, hn, ht, hidx⟩ := processFieldsGo_spec fs 0 [] m h (by simp) (by simp)
    (by omega)
  refine ⟨by simpa using hlen, hn, ht, ?_⟩
  intro i f hf
  obtain ⟨p, hp, h1, h2, h3⟩ := hidx i f hf
  simp only [List.length_nil, Nat.zero_add] at hp h3
  exact ⟨p, hp, h1, h2, h3⟩

/-- The names of the computed bijection are the declared names in order. -/
theorem processFields_names {fs : List Member} {m : List (String × Nat)}
    (h : processFields fs = .ok m) : m.map Prod.fst = fs.map mName := by
  obtain ⟨hlen, _, _, hidx⟩ := processFields_spec h
  apply List.ext_getElem?
  intro n
  by_cases hn : n < fs.length
  · obtain ⟨f, hf⟩ : ∃ f, fs[n]? = some f := by
      rw [List.getElem?_eq_getElem hn]
      exact ⟨_, rfl⟩
    obtain ⟨p, hp, h1, _, _⟩ := hidx n f hf
    rw [List.getElem?_map, List.getElem?_map, hp, hf]
    simp [h1]
  · rw [List.getElem?_map, List.getElem?_map]
    have h1 : m[n]? = none := by
      rw [List.getElem?_eq_none]
      omega
    have h2 : fs[n]? = none := by
      rw [List.getElem?_eq_none]
      omega
    rw [h1, h2]
    rfl

theorem lookupName_spec {m : List (String × Nat)} (hn : (m.map Prod.fst).Nodup) :
    ∀ {i : Nat} {p : String × Nat}, m[i]? = some p → lookupName m p.1 = some p.2 := by
  induction m with
  | nil => intro i p hp; simp at hp
  | cons q rest ih =>
    intro i p hp
    cases i with
    | zero =>
      simp at hp
      subst hp
      rw [lookupName, if_pos rfl]
    | succ i =>
      simp only [List.getElem?_cons_succ] at hp
      have hq : q.1 ≠ p.1 := by
        intro heq
        rw [List.map_cons, List.nodup_cons] at hn
        apply hn.1
        rw [heq]
        exact List.mem_map.2 ⟨p, mem_of_getElemQ hp, rfl⟩
      rw [lookupName]
      rcases q with ⟨a, b⟩
      rw [if_neg hq]
      exact ih (by rw [List.map_cons, List.nodup_cons] at hn; exact hn.2) hp

theorem lookupTag_spec {m : List (String × Nat)} (ht : (m.map Prod.snd).Nodup) :
    ∀ {i : Nat} {p : String × Nat}, m[i]? = some p → lookupTag m p.2 = some p.1 := by
  induction m with
  | nil => intro i p hp; simp at hp
  | cons q rest ih =>
    intro i p hp
    cases i with
    | zero =>
      simp at hp
      subst hp
      rw [lookupTag, if_pos rfl]
    | succ i =>
      simp only [List.getElem?_cons_succ] at hp
      have hq : q.2 ≠ p.2 := by
        intro heq
        rw [List.map_cons, List.nodup_cons] at ht
        apply ht.1
        rw [heq]
        exact List.mem_map.2 ⟨p, mem_of_getElemQ hp, rfl⟩
      rw [lookupTag]
      rcases q with ⟨a, b⟩
      rw [if_neg hq]
      exact ih (by rw [List.map_cons, List.nodup_cons] at ht; exact ht.2) hp

theorem findMember_spec_aux {fs : List Member} (hn : (fs.map mName).Nodup) :
    ∀ {i : Nat} {f : Member} (d : Nat), fs[i]? = some f →
      findMember fs (mName f) d = some (d + i, f) := by
  induction fs with
  | nil => intro i f d hp; simp at hp
  | cons g rest ih =>
    intro i f d hp
    cases i with
    | zero =>
      simp at hp
      subst hp
      rw [findMember, if_pos rfl, Nat.add_zero]
    | succ i =>
      simp only [List.getElem?_cons_succ] at hp
      have hq : mName g ≠ mName f := by
        intro heq
        rw [List.map_cons, List.nodup_cons] at hn
        apply hn.1
        rw [heq]
        exact List.mem_map.2 ⟨f, mem_of_getElemQ hp, rfl⟩
      rw [findMember, if_neg hq]
      have := ih (by rw [List.map_cons, List.nodup_cons] at hn; exact hn.2) (d + 1) hp
      rw [this]
      congr 2
      omega

theorem findMember_spec {fs : List Member} (hn : (fs.map mName).Nodup) {i : Nat} {f : Member}
    (hp : fs[i]? = some f) : findMember fs (mName f) 0 = some (i, f) := by
  have := findMember_spec_aux hn 0 hp
  simpa using this

/-! ## Lawfulness of every field decoder -/

mutual

theorem decodeField_lawful (cap : Option Nat) (ty : FieldTy) : DLawful (decodeField cap ty) := by
  cases ty with
  | uint mvo =>
    rw [decodeField]
    cases UintEncoder.getPackCode mvo with
    | error e => exact dlawful_fail e
    | ok w => exact dlawful_bind (dlawful_readBytes _ _) (fun _ => dlawful_pure _)
  | int mvo =>
    rw [decodeField]
    cases IntEncoder.getPackCode mvo with
    | error e => exact dlawful_fail e
    | ok w => exact dlawful_bind (dlawful_readBytes _ _) (fun _ => dlawful_pure _)
  | bool =>
    rw [decodeField]
    exact dlawful_bind (dlawful_readBytes _ _) (fun _ => dlawful_pure _)
  | float bo =>
    rw [decodeField]
    cases FloatEncoder.getPackCode bo with
    | error e => exact dlawful_fail e
    | ok w => exact dlawful_bind (dlawful_readBytes _ _) (fun _ => dlawful_pure _)
  | str =>
    rw [decodeField]
    refine dlawful_bind (dlawful_readBytes _ _) (fun lenB =>
      dlawful_bind (dlawful_readBytes _ _) (fun sb => ?_))
    cases utf8Decode sb with
    | none => exact dlawful_fail _
    | some cs => exact dlawful_pure _
  | buffer =>
    rw [decodeField]
    exact dlawful_bind (dlawful_readBytes _ _) (fun lenB =>
      dlawful_bind (dlawful_readBytes _ _) (fun bb => dlawful_pure _))
  | list e =>
    rw [decodeField]
    exact dlawful_bind (dlawful_readBytes _ _) (fun lenB =>
      dlawful_bind (decodeListLoop_lawful cap e (beVal lenB) 0 []) (fun vs => dlawful_pure _))
  | group fs =>
    rw [decodeField]
    cases processFields fs with
    | error e => exact dlawful_fail e
    | ok m =>
      exact dlawful_bind (dlawful_readBytes _ _) (fun cntB =>
        dlawful_bind (decodeGroupLoop_lawful cap fs m (beVal cntB) _) (fun vals => dlawful_pure _))
termination_by (sizeOf ty, 0)

theorem decodeListLoop_lawful (cap : Option Nat) (e : FieldTy) (n : Nat) (i : Nat)
    (acc : List FieldVal) : DLawful (decodeListLoop cap e n i acc) := by
  cases n with
  | zero =>
    rw [decodeListLoop]
    exact dlawful_pure _
  | succ n =>
    rw [decodeListLoop]
    exact dlawful_bind (dlawful_wrap _ (decodeField_lawful cap e))
      (fun v => decodeListLoop_lawful cap e n (i + 1) (acc ++ [v]))
termination_by (sizeOf e, 1 + n)

theorem decodeGroupLoop_lawful (cap : Option Nat) (fs : List Member)
    (m : List (String × Nat)) (n : Nat) (vals : List FieldVal) :
    DLawful (decodeGroupLoop cap fs m n vals) := by
  cases n with
  | zero =>
    rw [decodeGroupLoop]
    exact dlawful_pure _
  | succ n =>
    rw [decodeGroupLoop]
    refine dlawful_bind (dlawful_readBytes _ _) (fun tagB => ?_)
    cases lookupTag m (beVal tagB) with
    | none =>
      simp only []
      exact dlawful_fail _
    | some name =>
      simp only []
      cases hfm : findMember fs name 0 with
      | none =>
        simp only []
        exact dlawful_fail _
      | some pr =>
        obtain ⟨i, f⟩ := pr
        simp only []
        exact dlawful_bind (dlawful_wrap _ (decodeField_lawful cap (mTy f)))
          (fun v => decodeGroupLoop_lawful cap fs m n (vals.set i v))
termination_by (sizeOf fs, 1 + n)
decreasing_by
  · exact Prod.Lex.left _ _ (member_ty_sizeOf_lt (findMember_mem hfm))
  · exact Prod.Lex.right _ (by omega)

end

/-! ## Round-trip: helper lemmas -/

/-- Compatibility of a read size with the adapter's cap: the cap is absent,
inert (zero), or at least the size. -/
def capOK (cap : Option Nat) (n : Nat) : Prop := ∀ c, cap = some c → c = 0 ∨ n ≤ c

theorem capOK_none (n : Nat) : capOK none n := by
  intro c hc
  cases hc

theorem capOK_mono {cap : Option Nat} {n m : Nat} (h : capOK cap n) (hm : m ≤ n) :
    capOK cap m := by
  intro c hc
  rcases h c hc with h0 | h1
  · exact Or.inl h0
  · exact Or.inr (by omega)

theorem readBytes_run {cap : Option Nat} {n : Nat} {bs : List Nat} (ext : List Nat)
    (hlen : bs.length = n) (hcap : capOK cap n) :
    readBytes cap n (bs ++ ext) = .done bs n := by
  have hfull : ¬ (bs ++ ext).length < n := by
    rw [List.length_append]
    omega
  have htake : (bs ++ ext).take n = bs := by
    rw [← hlen, List.take_append_of_le_length (by omega), List.take_length]
  cases cap with
  | none =>
    rw [readBytes]
    rw [if_neg hfull, htake]
  | some c =>
    rw [readBytes]
    rcases hcap c rfl with h0 | h1
    · rw [if_neg (by omega), if_neg hfull, htake]
    · rw [if_neg (by omega), if_neg hfull, htake]

theorem bindD_done_done {α β : Type} {m : DecM α} {f : α → DecM β} {bs : List Nat} {a : α}
    {k : Nat} {b : β} {k2 : Nat} (hm : m bs = .done a k) (hf : f a (bs.drop k) = .done b k2) :
    bindD m f bs = .done b (k + k2) := by
  simp only [bindD, hm, hf]

theorem bindD_fail {α β : Type} {m : DecM α} {f : α → DecM β} {bs : List Nat} {e : Err}
    (hm : m bs = .fail e) : bindD m f bs = .fail e := by
  simp only [bindD, hm]

theorem bindD_done_fail {α β : Type} {m : DecM α} {f : α → DecM β} {bs : List Nat} {a : α}
    {k : Nat} {e : Err} (hm : m bs = .done a k) (hf : f a (bs.drop k) = .fail e) :
    bindD m f bs = .fail e := by
  simp only [bindD, hm, hf]

theorem wrapD_done {α : Type} {w : Err → Err} {m : DecM α} {bs : List Nat} {a : α} {k : Nat}
    (hm : m bs = .done a k) : wrapD w m bs = .done a k := by
  simp only [wrapD, hm]

/-- Number of fields with data (matching the count the encoder writes). -/
def presentNum : List FieldVal → Nat
  | [] => 0
  | v :: vs => presentNum vs + (if isUnset v then 0 else 1)

theorem presentNum_le (vs : List FieldVal) : presentNum vs ≤ vs.length := by
  induction vs with
  | nil => simp [presentNum]
  | cons v vs ih =>
    rw [presentNum]
    simp only [List.length_cons]
    by_cases h : isUnset v = true <;> simp [h] <;> omega

theorem presentCount_ok {fs : List Member} {vs : List FieldVal}
    (hex : ExactMembers fs vs = true) : presentCount fs vs = .ok (presentNum vs) := by
  induction fs generalizing vs with
  | nil =>
    cases vs with
    | nil => rw [presentCount, presentNum]
    | cons v vs => rw [ExactMembers] at hex; cases hex
  | cons f fs ih =>
    obtain ⟨fname, fet, fopt, fty⟩ := f
    cases vs with
    | nil => rw [ExactMembers] at hex; cases hex
    | cons v vs =>
      rw [ExactMembers, Bool.and_eq_true] at hex
      rw [presentCount, presentNum]
      by_cases hu : isUnset v = true
      · rw [if_pos hu]
        rw [hu] at hex
        simp only [if_true] at hex
        have hopt : mOpt (fname, fet, fopt, fty) = true := hex.1
        rw [if_pos hopt, ih hex.2, hu]
        simp
      · rw [if_neg hu, ih hex.2]
        simp only [Bool.not_eq_true] at hu
        rw [hu]
        simp

/-- The effect of the group-decode loop on the value array: each present
entry of the suffix overwrites its slot, UNSET entries are skipped. -/
def applyPresent (d : Nat) : List FieldVal → List FieldVal → List FieldVal
  | [], vals => vals
  | v :: rest, vals =>
    if isUnset v then applyPresent (d + 1) rest vals
    else applyPresent (d + 1) rest (vals.set d v)

theorem applyPresent_length (vs : List FieldVal) :
    ∀ (d : Nat) (vals : List FieldVal), (applyPresent d vs vals).length = vals.length := by
  induction vs with
  | nil => intro d vals; rw [applyPresent]
  | cons v rest ih =>
    intro d vals
    rw [applyPresent]
    by_cases h : isUnset v = true
    · rw [if_pos h, ih]
    · rw [if_neg h, ih]
      simp

theorem applyPresent_eq (vs : List FieldVal) :
    ∀ (d : Nat) (vals : List FieldVal), vals.length = d + vs.length →
    (∀ j, j < vs.length → vs[j]? = some .unset → vals[d + j]? = some FieldVal.unset) →
    applyPresent d vs vals = vals.take d ++ vs := by
  induction vs with
  | nil =>
    intro d vals hlen _
    rw [applyPresent, List.append_nil, List.take_of_length_le (by simp at hlen; omega)]
  | cons v rest ih =>
    intro d vals hlen hun
    rw [applyPresent]
    by_cases h : isUnset v = true
    · rw [if_pos h]
      have hv : v = .unset := by
        cases v <;> simp [isUnset] at h <;> rfl
      subst hv
      have hvd : vals[d]? = some FieldVal.unset := by
        have := hun 0 (by simp) (by simp)
        simpa using this
      rw [ih (d + 1) vals (by simp at hlen; omega)
        (by
          intro j hj hjv
          have := hun (j + 1) (by simp; omega) (by simpa using hjv)
          have harr : d + (j + 1) = d + 1 + j := by omega
          rwa [harr] at this)]
      have hd : d < vals.length := by simp at hlen; omega
      rw [List.getElem?_eq_some] at hvd
      obtain ⟨hdlt, hdval⟩ := hvd
      have : vals.take (d + 1) = vals.take d ++ [FieldVal.unset] := by
        rw [← hdval, ← List.take_concat_get vals d hdlt]
        simp
      rw [this, List.append_assoc]
      rfl
    · rw [if_neg h]
      rw [ih (d + 1) (vals.set d v) (by simp at hlen ⊢; omega)
        (by
          intro j hj hjv
          have := hun (j + 1) (by simp; omega) (by simpa using hjv)
          have harr : d + (j + 1) = d + 1 + j := by omega
          rw [harr] at this
          rw [List.getElem?_set_ne (by omega)]
          exact this)]
      have hd : d < vals.length := by simp at hlen; omega
      have htakeset : (vals.set d v).take d = vals.take d := by
        apply List.ext_getElem?
        intro j
        rw [List.getElem?_take, List.getElem?_take]
        by_cases hj : j < d
        · rw [if_pos hj, if_pos hj, List.getElem?_set_ne (by omega)]
        · rw [if_neg hj, if_neg hj]
      have : (vals.set d v).take (d + 1) = vals.take d ++ [v] := by
        rw [← List.take_concat_get (vals.set d v) d (by simpa using hd)]
        rw [List.getElem_set_self, htakeset, List.concat_eq_append]
      rw [this, List.append_assoc]
      rfl

theorem utf8EncodeChar_ascii {c : Char} (h : c.toNat < 128) : utf8EncodeChar c = [c.toNat] := by
  rw [utf8EncodeChar, if_pos h]

theorem utf8Bytes_ascii_length {cs : List Char} (h : ∀ c ∈ cs, c.toNat < 128) :
    (utf8Bytes cs).length = cs.length := by
  induction cs with
  | nil => rfl
  | cons c cs ih =>
    rw [utf8Bytes, List.length_append, utf8EncodeChar_ascii (h c (by simp)), ih
      (fun x hx => h x (by simp [hx]))]
    simp
    omega

theorem padTrunc_eq_self {n : Nat} {bs : List Nat} (h : bs.length = n) : padTrunc n bs = bs := by
  rw [padTrunc, ← h, List.take_length]
  simp

theorem stringMk_data (s : String) : String.mk s.data = s := rfl

theorem string_length_data (s : String) : s.length = s.data.length := rfl

/-- A lawful read of `w` big-endian bytes holding a value below the range. -/
theorem readBE_run {cap : Option Nat} {w v : Nat} (ext : List Nat) (hv : v < 2 ^ (8 * w))
    (hcap : capOK cap w) : readBE cap w (beBytes w v ++ ext) = .done v w := by
  rw [readBE]
  have h1 := readBytes_run ext (beBytes_length w v) hcap
  have h2 := beVal_beBytes w v hv
  have h3 : pureD (α := Nat) (beVal (beBytes w v)) ((beBytes w v ++ ext).drop w) =
      .done v 0 := by
    rw [pureD, h2]
  exact Eq.trans (bindD_done_done h1 h3) (by rw [Nat.add_zero])

theorem drop_len_append {l1 l2 : List Nat} {n : Nat} (h : l1.length = n) :
    (l1 ++ l2).drop n = l2 := by
  rw [← h, List.drop_left]

/-- Two's-complement round-trip at byte width `w ≥ 1` for a value within the
signed range. -/
theorem sint_roundtrip (w : Nat) (i : Int) (hw : 1 ≤ w)
    (h1 : -(2 ^ (8 * w - 1) : Int) ≤ i) (h2 : i < 2 ^ (8 * w - 1)) :
    sintOfBytes w ((i % (2 ^ (8 * w) : Int)).toNat) = i := by
  have hM : (2 ^ (8 * w) : Int) = 2 * 2 ^ (8 * w - 1) := by
    have hps := pow_succ (2 : Int) (8 * w - 1)
    rw [show (8 * w - 1) + 1 = 8 * w from by omega] at hps
    rw [hps]
    ring
  have hHpos : (0 : Int) < 2 ^ (8 * w - 1) := by positivity
  have hHcast : ((2 ^ (8 * w - 1) : Nat) : Int) = (2 ^ (8 * w - 1) : Int) := by push_cast; rfl
  by_cases hi : 0 ≤ i
  · have hmod : i % (2 ^ (8 * w) : Int) = i := Int.emod_eq_of_lt hi (by omega)
    rw [hmod, sintOfBytes]
    rw [if_neg (by omega)]
    omega
  · have h0 : 0 ≤ i + 2 ^ (8 * w) := by omega
    have hlt : i + 2 ^ (8 * w) < 2 ^ (8 * w) := by omega
    have hmod : i % (2 ^ (8 * w) : Int) = i + 2 ^ (8 * w) := by
      have hrw : i + 2 ^ (8 * w) = i + 1 * 2 ^ (8 * w) := by ring
      calc i % (2 ^ (8 * w) : Int) = (i + 1 * 2 ^ (8 * w)) % (2 ^ (8 * w)) := by
            rw [Int.add_mul_emod_self]
        _ = i + 2 ^ (8 * w) := by
            rw [← hrw]
            exact Int.emod_eq_of_lt h0 hlt
    rw [hmod, sintOfBytes]
    rw [if_pos (by omega)]
    omega

theorem ExactMembers_length : ∀ {fs : List Member} {vs : List FieldVal},
    ExactMembers fs vs = true → vs.length = fs.length := by
  intro fs
  induction fs with
  | nil =>
    intro vs h
    cases vs with
    | nil => rfl
    | cons v vs => rw [ExactMembers] at h; cases h
  | cons f fs ih =>
    intro vs h
    obtain ⟨fname, fet, fopt, fty⟩ := f
    cases vs with
    | nil => rw [ExactMembers] at h; cases h
    | cons v vs =>
      rw [ExactMembers, Bool.and_eq_true] at h
      simp only [List.length_cons, ih h.2]

/-! ## The round-trip theorem: decoding retraces a successful encoding -/

mutual

/-- Round-trip with trailing bytes: a value the codec represents exactly,
once encoded, is decoded back unchanged, consuming exactly its encoding,
under any cap compatible with the encoding's length. -/
theorem encodeField_rt :
    ∀ (ty : FieldTy) (v : FieldVal) (bs : List Nat),
    ExactB ty v = true → encodeField ty v = .ok bs →
    ∀ (cap : Option Nat), capOK cap bs.length → ∀ (ext : List Nat),
    decodeField cap ty (bs ++ ext) = .done v bs.length := by
  intro ty v bs hex henc cap hcap ext
  cases ty with
  | uint mvo =>
    rw [encodeField] at henc
    cases hw : UintEncoder.getPackCode mvo with
    | error e => rw [hw] at henc; simp only [] at henc; cases henc
    | ok w =>
      rw [hw] at henc
      simp only [] at henc
      cases v <;> try simp only [] at henc
      case uintV n =>
        rw [packNat] at henc
        by_cases hn : n < 2 ^ (8 * w)
        · rw [if_pos hn] at henc
          cases henc
          rw [beBytes_length] at hcap
          rw [decodeField.eq_def]
          simp only []
          rw [hw]
          simp only []
          have h1 := readBytes_run ext (beBytes_length w n) hcap
          have h2 : pureD (α := FieldVal) (.uintV (beVal (beBytes w n)))
              ((beBytes w n ++ ext).drop w) = .done (.uintV n) 0 := by
            rw [pureD, beVal_beBytes w n hn]
          refine Eq.trans (bindD_done_done h1 h2) ?_
          rw [beBytes_length, Nat.add_zero]
        · rw [if_neg hn] at henc
          cases henc
      all_goals cases henc
  | int mvo =>
    rw [encodeField] at henc
    cases hw : IntEncoder.getPackCode mvo with
    | error e => rw [hw] at henc; simp only [] at henc; cases henc
    | ok w =>
      rw [hw] at henc
      simp only [] at henc
      cases v <;> try simp only [] at henc
      case intV i =>
        rw [packInt] at henc
        by_cases hi : -(2 ^ (8 * w - 1) : Int) ≤ i ∧ i < 2 ^ (8 * w - 1)
        · rw [if_pos hi] at henc
          cases henc
          rw [beBytes_length] at hcap
          have hw1 : 1 ≤ w := by
            have hmem := (UintEncoder.getPackCode_width
              (by rw [IntEncoder.getPackCode] at hw; exact hw)).1
            simp at hmem
            omega
          have hMpos : (0 : Int) < 2 ^ (8 * w) := by positivity
          have hcast : ((2 ^ (8 * w) : Nat) : Int) = (2 ^ (8 * w) : Int) := by push_cast; rfl
          have hmod1 : (0 : Int) ≤ i % (2 ^ (8 * w) : Int) := Int.emod_nonneg i (by omega)
          have hmod2 : i % (2 ^ (8 * w) : Int) < 2 ^ (8 * w) := Int.emod_lt_of_pos i hMpos
          have hnat : (i % (2 ^ (8 * w) : Int)).toNat < 2 ^ (8 * w) := by omega
          rw [decodeField.eq_def]
          simp only []
          rw [hw]
          simp only []
          have h1 := readBytes_run ext
            (beBytes_length w (i % (2 ^ (8 * w) : Int)).toNat) hcap
          have h2 : pureD (α := FieldVal)
              (.intV (sintOfBytes w (beVal (beBytes w (i % (2 ^ (8 * w) : Int)).toNat))))
              ((beBytes w (i % (2 ^ (8 * w) : Int)).toNat ++ ext).drop w) = .done (.intV i) 0 := by
            rw [pureD, beVal_beBytes _ _ hnat, sint_roundtrip w i hw1 hi.1 hi.2]
          refine Eq.trans (bindD_done_done h1 h2) ?_
          rw [beBytes_length, Nat.add_zero]
        · rw [if_neg hi] at henc
          cases henc
      all_goals cases henc
  | bool =>
    cases v <;> (rw [encodeField.eq_def] at henc; simp only [] at henc)
    case boolV b =>
      cases henc
      rw [decodeField.eq_def]
      simp only []
      have h1 := readBytes_run ext
        (show ([if b then 1 else 0] : List Nat).length = 1 from rfl) hcap
      have h2 : pureD (α := FieldVal)
          (.boolV (([if b then (1 : Nat) else 0] : List Nat).headD 0 != 0))
          (([if b then (1 : Nat) else 0] ++ ext).drop 1) = .done (.boolV b) 0 := by
        cases b <;> rfl
      exact Eq.trans (bindD_done_done h1 h2) rfl
    all_goals cases henc
  | float bo =>
    rw [encodeField] at henc
    cases hw : FloatEncoder.getPackCode bo with
    | error e => rw [hw] at henc; simp only [] at henc; cases henc
    | ok w =>
      rw [hw] at henc
      simp only [] at henc
      cases v <;> try simp only [] at henc
      case floatV p =>
        rw [packNat] at henc
        by_cases hn : p < 2 ^ (8 * w)
        · rw [if_pos hn] at henc
          cases henc
          rw [beBytes_length] at hcap
          rw [decodeField.eq_def]
          simp only []
          rw [hw]
          simp only []
          have h1 := readBytes_run ext (beBytes_length w p) hcap
          have h2 : pureD (α := FieldVal) (.floatV (beVal (beBytes w p)))
              ((beBytes w p ++ ext).drop w) = .done (.floatV p) 0 := by
            rw [pureD, beVal_beBytes w p hn]
          refine Eq.trans (bindD_done_done h1 h2) ?_
          rw [beBytes_length, Nat.add_zero]
        · rw [if_neg hn] at henc
          cases henc
      all_goals cases henc
  | str =>
    cases v <;> (rw [encodeField.eq_def] at henc; simp only [] at henc)
    case stringV s =>
      rw [ExactB, Bool.and_eq_true] at hex
      have hlen : s.length < 2 ^ 16 := of_decide_eq_true hex.1
      have hascii : ∀ c ∈ s.data, c.toNat < 128 := by
        intro c hc
        have := List.all_eq_true.1 hex.2 c hc
        exact of_decide_eq_true this
      have hbl : (strBytes s).length = s.length := by
        rw [strBytes, utf8Bytes_ascii_length hascii, string_length_data]
      simp only [StringEncoder.encode, StringEncoder.MAX_LENGTH,
        StringEncoder.STRING_LENGTH_BYTES, packNat] at henc
      rw [if_neg (by norm_num; omega), if_pos (by norm_num; omega)] at henc
      simp only [] at henc
      cases henc
      rw [padTrunc_eq_self hbl] at hcap ⊢
      rw [decodeField.eq_def]
      simp only []
      rw [List.length_append, beBytes_length] at hcap
      have h1 := readBytes_run (strBytes s ++ ext) (beBytes_length 2 s.length)
        (capOK_mono hcap (by omega))
      rw [List.append_assoc]
      refine Eq.trans (@bindD_done_done _ _ _ _ _ _ _ (FieldVal.stringV s)
        ((strBytes s).length) h1 ?_) ?_
      · rw [drop_len_append (beBytes_length 2 s.length)]
        have hval : beVal (beBytes 2 s.length) = s.length :=
          beVal_beBytes 2 s.length (by norm_num; omega)
        rw [hval]
        have h3 := readBytes_run ext hbl (capOK_mono hcap (by omega))
        refine Eq.trans (@bindD_done_done _ _ _ _ _ _ _ (FieldVal.stringV s) 0 h3 ?_) ?_
        · rw [drop_len_append hbl, utf8Decode_strBytes]
          simp only []
          rw [pureD, stringMk_data]
        · rw [Nat.add_zero, hbl]
      · rw [List.length_append, beBytes_length, hbl]
    all_goals cases henc
  | buffer =>
    cases v <;> (rw [encodeField.eq_def] at henc; simp only [] at henc)
    case bufferV bv =>
      simp only [BufferEncoder.encode, BufferEncoder.MAX_LENGTH,
        BufferEncoder.BUFFER_LENGTH_BYTES, packNat] at henc
      by_cases hover : bv.length > 2 ^ (8 * 8)
      · rw [if_pos hover] at henc
        cases henc
      · rw [if_neg hover] at henc
        by_cases hn : bv.length < 2 ^ (8 * 8)
        · rw [if_pos hn] at henc
          simp only [] at henc
          cases henc
          rw [decodeField.eq_def]
          simp only []
          rw [List.length_append, beBytes_length] at hcap
          have h1 := readBytes_run (bv ++ ext) (beBytes_length 8 bv.length)
            (capOK_mono hcap (by omega))
          rw [List.append_assoc]
          refine Eq.trans (@bindD_done_done _ _ _ _ _ _ _ (FieldVal.bufferV bv)
            bv.length h1 ?_) ?_
          · rw [drop_len_append (beBytes_length 8 bv.length), beVal_beBytes _ _ hn]
            have h3 : readBytes cap bv.length (bv ++ ext) = .done bv bv.length :=
              readBytes_run ext rfl (capOK_mono hcap (by omega))
            refine Eq.trans (@bindD_done_done _ _ _ _ _ _ _ (FieldVal.bufferV bv) 0 h3 ?_) ?_
            · rw [drop_len_append (rfl : bv.length = bv.length)]
              rfl
            · rw [Nat.add_zero]
          · rw [List.length_append, beBytes_length]
        · rw [if_neg hn] at henc
          cases henc
    all_goals cases henc
  | list e =>
    cases v <;> (rw [encodeField.eq_def] at henc; simp only [] at henc)
    case listV vs =>
      rw [ExactB, Bool.and_eq_true] at hex
      have hexl : ExactList e vs = true := hex.2
      simp only [packNat] at henc
      by_cases hn : vs.length < 2 ^ (8 * 2)
      · rw [if_pos hn] at henc
        simp only [] at henc
        cases hbody : encodeListElems e vs with
        | error er => rw [hbody] at henc; simp only [] at henc; cases henc
        | ok body =>
          rw [hbody] at henc
          simp only [] at henc
          cases henc
          rw [decodeField.eq_def]
          simp only []
          rw [List.length_append, beBytes_length] at hcap
          have h1 := readBytes_run (body ++ ext) (beBytes_length 2 vs.length)
            (capOK_mono hcap (by omega))
          rw [List.append_assoc]
          refine Eq.trans (@bindD_done_done _ _ _ _ _ _ _ (FieldVal.listV vs)
            body.length h1 ?_) ?_
          · rw [drop_len_append (beBytes_length 2 vs.length), beVal_beBytes _ _ hn]
            have h3 := encodeListElems_rt e vs body hexl hbody cap
              (capOK_mono hcap (by omega)) ext 0 []
            rw [List.nil_append] at h3
            refine Eq.trans (@bindD_done_done _ _ _ _ _ _ _ (FieldVal.listV vs) 0 h3 ?_) ?_
            · rfl
            · rw [Nat.add_zero]
          · rw [List.length_append, beBytes_length]
      · rw [if_neg hn] at henc
        cases henc
    all_goals cases henc
  | group fs =>
    cases v <;> (rw [encodeField.eq_def] at henc; simp only [] at henc)
    case groupV vs =>
      rw [ExactB] at hex
      cases hm : processFields fs with
      | error e =>
        rw [hm] at hex
        simp only [] at hex
        cases hex
      | ok m =>
        rw [hm] at hex henc
        simp only [] at hex henc
        rw [Bool.and_eq_true, Bool.and_eq_true] at hex
        obtain ⟨⟨hlen16, htags0⟩, hexm⟩ := hex
        have hlen16 : fs.length < 2 ^ 16 := of_decide_eq_true hlen16
        have htags : ∀ p ∈ m, p.2 < 2 ^ 16 := by
          intro p hp
          exact of_decide_eq_true (List.all_eq_true.1 htags0 p hp)
        have hvslen : vs.length = fs.length := ExactMembers_length hexm
        rw [presentCount_ok hexm] at henc
        simp only [packNat] at henc
        have hcnt : presentNum vs < 2 ^ (8 * 2) := by
          have := presentNum_le vs
          norm_num
          omega
        rw [if_pos hcnt] at henc
        simp only [] at henc
        cases hbody : encodeMembers m fs vs with
        | error er => rw [hbody] at henc; simp only [] at henc; cases henc
        | ok body =>
          rw [hbody] at henc
          simp only [] at henc
          cases henc
          rw [decodeField.eq_def]
          simp only []
          rw [hm]
          simp only []
          rw [List.length_append, beBytes_length] at hcap
          have h1 := readBytes_run (body ++ ext)
            (beBytes_length 2 (presentNum vs)) (capOK_mono hcap (by omega))
          rw [List.append_assoc]
          refine Eq.trans (@bindD_done_done _ _ _ _ _ _ _ (FieldVal.groupV vs)
            body.length h1 ?_) ?_
          · rw [drop_len_append (beBytes_length 2 (presentNum vs)), beVal_beBytes _ _ hcnt]
            have h3 := encodeMembers_rt fs vs fs m body 0 hm htags (List.drop_zero fs) hexm hbody
              cap (capOK_mono hcap (by omega)) ext
              (List.replicate fs.length FieldVal.unset) (by simp)
            have happ : applyPresent 0 vs (List.replicate fs.length FieldVal.unset) = vs := by
              rw [applyPresent_eq vs 0 _ (by simp; omega)
                (by
                  intro j hj _
                  rw [Nat.zero_add, List.getElem?_replicate, if_pos (by omega)])]
              simp
            rw [happ] at h3
            refine Eq.trans (@bindD_done_done _ _ _ _ _ _ _ (FieldVal.groupV vs) 0 h3 ?_) ?_
            · rfl
            · rw [Nat.add_zero]
          · rw [List.length_append, beBytes_length]
    all_goals cases henc
termination_by ty => (sizeOf ty, 0)

/-- Round-trip of the list body through the list-decode loop. -/
theorem encodeListElems_rt :
    ∀ (e : FieldTy) (vs : List FieldVal) (bs : List Nat),
    ExactList e vs = true → encodeListElems e vs = .ok bs →
    ∀ (cap : Option Nat), capOK cap bs.length → ∀ (ext : List Nat) (i : Nat)
      (acc : List FieldVal),
    decodeListLoop cap e vs.length i acc (bs ++ ext) = .done (acc ++ vs) bs.length := by
  intro e vs bs hex henc cap hcap ext i acc
  cases vs with
  | nil =>
    rw [encodeListElems] at henc
    cases henc
    simp only [List.length_nil]
    rw [decodeListLoop, pureD]
    simp
  | cons v vs =>
    rw [ExactList, Bool.and_eq_true] at hex
    rw [encodeListElems] at henc
    cases henc1 : encodeField e v with
    | error er => rw [henc1] at henc; simp only [] at henc; cases henc
    | ok venc =>
      rw [henc1] at henc
      simp only [] at henc
      cases henc2 : encodeListElems e vs with
      | error er => rw [henc2] at henc; simp only [] at henc; cases henc
      | ok rest =>
        rw [henc2] at henc
        simp only [] at henc
        cases henc
        rw [List.length_append] at hcap
        simp only [List.length_cons]
        rw [decodeListLoop]
        have h1 := wrapD_done (w := fun _ => Err.listWrapped i)
          (encodeField_rt e v venc hex.1 henc1 cap (capOK_mono hcap (by omega)) (rest ++ ext))
        rw [List.append_assoc]
        refine Eq.trans (@bindD_done_done _ _ _ _ _ _ _ (acc ++ v :: vs)
          rest.length h1 ?_) ?_
        · rw [drop_len_append (rfl : venc.length = venc.length)]
          have h3 := encodeListElems_rt e vs rest hex.2 henc2 cap
            (capOK_mono hcap (by omega)) ext (i + 1) (acc ++ [v])
          rw [h3]
          simp
        · rw [List.length_append]
  termination_by e vs => (sizeOf e, 1 + vs.length)

/-- Round-trip of the present members of a group through the group-decode
loop: each wire entry re-fills exactly the slot it came from. -/
theorem encodeMembers_rt :
    ∀ (fsSuf : List Member) (vsSuf : List FieldVal) (fs : List Member)
      (m : List (String × Nat)) (bs : List Nat) (d : Nat),
    processFields fs = .ok m →
    (∀ p ∈ m, p.2 < 2 ^ 16) →
    fs.drop d = fsSuf →
    ExactMembers fsSuf vsSuf = true →
    encodeMembers m fsSuf vsSuf = .ok bs →
    ∀ (cap : Option Nat), capOK cap bs.length →
    ∀ (ext : List Nat) (vals : List FieldVal), vals.length = fs.length →
    decodeGroupLoop cap fs m (presentNum vsSuf) vals (bs ++ ext) =
      .done (applyPresent d vsSuf vals) bs.length := by
  intro fsSuf vsSuf fs m bs d hm htags hsuf hex henc cap hcap ext vals hvlen
  cases fsSuf with
  | nil =>
    cases vsSuf with
    | nil =>
      rw [encodeMembers] at henc
      cases henc
      rw [show presentNum [] = 0 from rfl, decodeGroupLoop]
      rfl
    | cons v vs => rw [ExactMembers] at hex; cases hex
  | cons f fs2 =>
    obtain ⟨fname, fet, fopt, fty⟩ := f
    cases vsSuf with
    | nil => rw [ExactMembers] at hex; cases hex
    | cons v vs2 =>
      rw [ExactMembers, Bool.and_eq_true] at hex
      rw [encodeMembers] at henc
      have hsuf2 : fs.drop (d + 1) = fs2 := by
        rw [show d + 1 = d + 1 from rfl, ← List.drop_drop, hsuf, List.drop_one]
        rfl
      by_cases hu : isUnset v = true
      · rw [if_pos hu] at henc
        rw [hu] at hex
        simp only [if_true] at hex
        rw [if_pos hex.1] at henc
        have hpn : presentNum (v :: vs2) = presentNum vs2 := by
          rw [presentNum, hu]
          simp
        rw [hpn]
        have hres := encodeMembers_rt fs2 vs2 fs m bs (d + 1) hm htags hsuf2 hex.2 henc
          cap hcap ext vals hvlen
        rw [hres, applyPresent, if_pos hu]
      · rw [if_neg hu] at henc
        rw [if_neg hu] at hex
        obtain ⟨hexv, hexm2⟩ := hex
        have hfd : fs[d]? = some (fname, fet, fopt, fty) := by
          have := List.getElem?_drop fs d 0
          rw [hsuf] at this
          simpa using this.symm
        obtain ⟨hmlen, hnamesnd, htagsnd, hidx⟩ := processFields_spec hm
        obtain ⟨p, hp, hp1, _, _⟩ := hidx d _ hfd
        have hpname : p.1 = fname := hp1
        have hlook : lookupName m fname = some p.2 := by
          have := lookupName_spec hnamesnd hp
          rwa [hpname] at this
        have hp16 : p.2 < 2 ^ 16 := htags p (mem_of_getElemQ hp)
        rw [hlook] at henc
        simp only [] at henc
        rw [packNat, if_pos (by norm_num; omega)] at henc
        simp only [] at henc
        cases henc1 : encodeField fty v with
        | error er => rw [henc1] at henc; simp only [] at henc; cases henc
        | ok venc =>
          rw [henc1] at henc
          simp only [] at henc
          cases henc2 : encodeMembers m fs2 vs2 with
          | error er => rw [henc2] at henc; simp only [] at henc; cases henc
          | ok rest =>
            rw [henc2] at henc
            simp only [] at henc
            cases henc
            have hpn : presentNum (v :: vs2) = presentNum vs2 + 1 := by
              rw [presentNum, if_neg hu]
            rw [hpn, decodeGroupLoop]
            rw [List.length_append, List.length_append, beBytes_length] at hcap
            have h1 := readBytes_run (venc ++ (rest ++ ext))
              (beBytes_length 2 p.2) (capOK_mono hcap (by omega))
            rw [List.append_assoc, List.append_assoc]
            refine Eq.trans (@bindD_done_done _ _ _ _ _ _ _
              (applyPresent (d + 1) vs2 (vals.set d v))
              (venc.length + rest.length) h1 ?_) ?_
            · rw [drop_len_append (beBytes_length 2 p.2), beVal_beBytes _ _ (by norm_num; omega)]
              have hlkt : lookupTag m p.2 = some fname := by
                have := lookupTag_spec htagsnd hp
                rwa [hpname] at this
              rw [hlkt]
              simp only []
              have hfsnames : (fs.map mName).Nodup := by
                rw [← processFields_names hm]
                exact hnamesnd
              have hfind : findMember fs fname 0 = some (d, (fname, fet, fopt, fty)) :=
                findMember_spec hfsnames hfd
              rw [hfind]
              simp only []
              have h2 := wrapD_done (w := Err.fieldWrapped fname)
                (encodeField_rt fty v venc hexv henc1 cap (capOK_mono hcap (by omega))
                  (rest ++ ext))
              refine Eq.trans (@bindD_done_done _ _ _ _ _ _ _
                (applyPresent (d + 1) vs2 (vals.set d v)) rest.length h2 ?_) ?_
              · rw [drop_len_append (rfl : venc.length = venc.length)]
                have h3 := encodeMembers_rt fs2 vs2 fs m rest (d + 1) hm htags hsuf2 hexm2
                  henc2 cap (capOK_mono hcap (by omega)) ext (vals.set d v) (by simp [hvlen])
                rw [h3]
              · rfl
            · rw [applyPresent, if_neg hu]
              simp [List.length_append, beBytes_length]
              try omega
  termination_by fsSuf vsSuf => (sizeOf fsSuf, 0)
  decreasing_by
    all_goals
      subst_vars
      apply Prod.Lex.left
      rw [hsuf]
      try simp
      try omega

end

/-! ## Frame-layer lemmas (PacketEncoder) -/

theorem take_len_append {l1 l2 : List Nat} {n : Nat} (h : l1.length = n) :
    (l1 ++ l2).take n = l1 := by
  rw [← h, List.take_left]

theorem beBytes_one {v : Nat} (h : v < 256) : beBytes 1 v = [v] := by
  rw [beBytes, beBytes, Nat.mod_eq_of_lt h]
  rfl

theorem headerDrop (a b : Nat) (R : List Nat) :
    (beBytes 8 a ++ (beBytes 8 b ++ R)).drop 16 = R := by
  rw [← List.append_assoc]
  exact drop_len_append (by simp [beBytes_length])

theorem capOK_some {c n : Nat} (h : n ≤ c) : capOK (some c) n := by
  intro c2 hc2
  cases hc2
  exact Or.inr h

theorem nat_xor_xor_cancel (a m : Nat) : Nat.xor (Nat.xor a m) m = a := by
  show (a ^^^ m) ^^^ m = a
  rw [Nat.xor_assoc, Nat.xor_self, Nat.xor_zero]

theorem postLock_lawful (lookup : String → String → Option (List Member)) (L : Nat) :
    DLawful (PacketEncoder.postLock lookup L) := by
  rw [PacketEncoder.postLock]
  apply dlawful_bind (dlawful_readBE _ _)
  intro nameLen
  apply dlawful_bind (dlawful_readBytes _ _)
  intro nameB
  cases utf8Decode nameB with
  | none => exact dlawful_fail _
  | some nameCs =>
    try simp only []
    apply dlawful_bind (dlawful_readBE _ _)
    intro verLen
    apply dlawful_bind (dlawful_readBytes _ _)
    intro verB
    cases utf8Decode verB with
    | none => exact dlawful_fail _
    | some verCs =>
      try simp only []
      cases lookup (String.mk nameCs) (String.mk verCs) with
      | none =>
        try simp only []
        exact dlawful_pure _
      | some fields =>
        try simp only []
        exact dlawful_bind (decodeField_lawful _ _) (fun v => dlawful_pure _)

/-- A successful PacketEncoder.encode yields exactly the patched frame: the
real length and its complement over the zero placeholders, then the
length-prefixed identifier and version and the field-group body. -/
theorem PacketEncoder.encode_eq {schema : PacketSchema} {v : FieldVal} {pkt : List Nat}
    (h : PacketEncoder.encode schema v = .ok pkt) :
    ∃ (body : List Nat) (L : Nat), encodeField (.group schema.fields) v = .ok body ∧
      (strBytes schema.name).length < 256 ∧ (strBytes schema.version).length < 256 ∧
      L < 2 ^ 64 ∧
      L = 18 + (strBytes schema.name).length + (strBytes schema.version).length
        + body.length ∧
      pkt.length = L ∧
      pkt = beBytes 8 L
        ++ beBytes 8 (Nat.xor L 0xFFFFFFFFFFFFFFFF)
        ++ [(strBytes schema.name).length] ++ strBytes schema.name
        ++ [(strBytes schema.version).length] ++ strBytes schema.version ++ body := by
  simp only [PacketEncoder.encode] at h
  by_cases hg : 256 ≤ (strBytes schema.name).length ∨ 256 ≤ (strBytes schema.version).length
  · rw [if_pos hg] at h
    cases h
  · rw [if_neg hg] at h
    cases hb : encodeField (.group schema.fields) v with
    | error e => rw [hb] at h; simp only [] at h; cases h
    | ok body =>
      rw [hb] at h
      simp only [] at h
      by_cases hlen : 2 ^ 64 ≤ (beBytes 8 0 ++ beBytes 8 0 ++ [(strBytes schema.name).length]
          ++ strBytes schema.name ++ [(strBytes schema.version).length]
          ++ strBytes schema.version ++ body).length
      · rw [if_pos hlen] at h
        cases h
      · rw [if_neg hlen] at h
        cases h
        push_neg at hg
        refine ⟨body, (beBytes 8 0 ++ beBytes 8 0 ++ [(strBytes schema.name).length]
          ++ strBytes schema.name ++ [(strBytes schema.version).length]
          ++ strBytes schema.version ++ body).length, rfl, hg.1, hg.2, by omega, ?_, ?_, ?_⟩
        · simp only [List.length_append, List.length_cons, List.length_nil, beBytes_length]
          omega
        · simp only [List.length_append, List.length_cons, List.length_nil, beBytes_length,
            List.length_drop]
          omega
        · simp only [List.append_assoc]
          rw [headerDrop]


/-- Frame integrity facts of a successful PacketEncoder.encode: the first
u64 is the frame length, the second its complement. -/
theorem PacketEncoder.encode_frame {schema : PacketSchema} {v : FieldVal} {pkt : List Nat}
    (h : PacketEncoder.encode schema v = .ok pkt) :
    beVal (pkt.take 8) = pkt.length ∧
    beVal ((pkt.drop 8).take 8) = Nat.xor pkt.length 0xFFFFFFFFFFFFFFFF ∧
    18 ≤ pkt.length ∧ pkt.length < 2 ^ 64 := by
  obtain ⟨body, L, hb, hn256, hv256, hL64, hL18, hplen, hpe⟩ := PacketEncoder.encode_eq h
  have hxor : Nat.xor L 0xFFFFFFFFFFFFFFFF < 2 ^ 64 :=
    Nat.xor_lt_two_pow hL64 (by norm_num)
  refine ⟨?_, ?_, by omega, by omega⟩
  · conv_lhs => rw [hpe]
    simp only [List.append_assoc]
    rw [take_len_append (beBytes_length 8 L), beVal_beBytes _ _ hL64, hplen]
  · conv_lhs => rw [hpe]
    simp only [List.append_assoc]
    rw [drop_len_append (beBytes_length 8 L),
      take_len_append (beBytes_length 8 (Nat.xor L 0xFFFFFFFFFFFFFFFF)),
      beVal_beBytes _ _ hxor, hplen]

/-- The length-check equation holds at the start of a valid frame, wherever
it sits in the stream. -/
theorem PacketEncoder.window_at_lock {schema : PacketSchema} {v : FieldVal} {pkt : List Nat}
    (h : PacketEncoder.encode schema v = .ok pkt) (g : List Nat) :
    windowOk (g ++ pkt) g.length = true := by
  obtain ⟨hv1, hv2, h18, h64⟩ := PacketEncoder.encode_frame h
  have hd : (g ++ pkt).drop (g.length + 8) = pkt.drop 8 := by
    rw [← List.drop_drop, drop_len_append rfl]
  rw [windowOk, drop_len_append rfl, hd, hv1, hv2, nat_xor_xor_cancel]
  simp

/-- The resync loop locks at the first position whose 16-byte window passes
the length check. -/
theorem PacketEncoder.findLock_locks {buf : List Nat} {k : Nat}
    (hwin : ∀ j, j < k → windowOk buf j = false)
    (hlen : k + 16 ≤ buf.length) (hok : windowOk buf k = true) :
    ∀ (n p : Nat), k = p + n → PacketEncoder.findLock buf p = some k := by
  intro n
  induction n with
  | zero =>
    intro p hp
    have hpk : p = k := by omega
    subst hpk
    rw [PacketEncoder.findLock, dif_pos (by omega), if_pos hok]
  | succ n ih =>
    intro p hp
    rw [PacketEncoder.findLock, dif_pos (by omega),
      if_neg (by simp [hwin p (by omega)])]
    exact ih (p + 1) (by omega)

/-- After a lock at the start of a valid frame, the capped decode retraces
the identifier, the version and the body, consuming exactly the frame tail. -/
theorem PacketEncoder.postLock_encode {lookup : String → String → Option (List Member)}
    {schema : PacketSchema} {v : FieldVal} {pkt : List Nat}
    (henc : PacketEncoder.encode schema v = .ok pkt)
    (hlk : lookup schema.name schema.version = some schema.fields)
    (hex : ExactB (.group schema.fields) v = true) (ext : List Nat) :
    PacketEncoder.postLock lookup pkt.length (pkt.drop 16 ++ ext)
      = .done (some v) (pkt.length - 16) := by
  obtain ⟨body, L, hb, hn256, hv256, hL64, hL18, hplen, hpe⟩ := PacketEncoder.encode_eq henc
  have hdropT : pkt.drop 16 = [(strBytes schema.name).length] ++ (strBytes schema.name
      ++ ([(strBytes schema.version).length] ++ (strBytes schema.version ++ body))) := by
    rw [hpe]
    simp only [List.append_assoc]
    rw [headerDrop]
  have hcap1 : capOK (some pkt.length) 1 := capOK_some (by omega)
  have hcapn : capOK (some pkt.length) (strBytes schema.name).length := capOK_some (by omega)
  have hcapv : capOK (some pkt.length) (strBytes schema.version).length :=
    capOK_some (by omega)
  have hcapb : capOK (some pkt.length) body.length := capOK_some (by omega)
  rw [PacketEncoder.postLock, hdropT]
  simp only [List.append_assoc]
  rw [← beBytes_one hn256, ← beBytes_one hv256]
  refine Eq.trans (@bindD_done_done _ _ _ _ _ _ _ (some v)
    ((strBytes schema.name).length + (1 + ((strBytes schema.version).length
      + (body.length + 0))))
    (readBE_run _ (by norm_num; omega) hcap1) ?_) ?_
  · try simp only []
    rw [drop_len_append (beBytes_length 1 (strBytes schema.name).length)]
    refine Eq.trans (@bindD_done_done _ _ _ _ _ _ _ (some v)
      (1 + ((strBytes schema.version).length + (body.length + 0)))
      (readBytes_run _ rfl hcapn) ?_) ?_
    · try simp only []
      rw [drop_len_append (rfl : (strBytes schema.name).length = (strBytes schema.name).length)]
      rw [utf8Decode_strBytes]
      try simp only []
      refine Eq.trans (@bindD_done_done _ _ _ _ _ _ _ (some v)
        ((strBytes schema.version).length + (body.length + 0))
        (readBE_run _ (by norm_num; omega) hcap1) ?_) ?_
      · try simp only []
        rw [drop_len_append (beBytes_length 1 (strBytes schema.version).length)]
        refine Eq.trans (@bindD_done_done _ _ _ _ _ _ _ (some v)
          (body.length + 0)
          (readBytes_run _ rfl hcapv) ?_) ?_
        · try simp only []
          rw [drop_len_append
            (rfl : (strBytes schema.version).length = (strBytes schema.version).length)]
          rw [utf8Decode_strBytes]
          try simp only []
          rw [stringMk_data, stringMk_data, hlk]
          try simp only []
          exact bindD_done_done
            (encodeField_rt (.group schema.fields) v body hex hb (some pkt.length) hcapb ext)
            rfl
        · rfl
      · rfl
    · rfl
  · rw [show (1 : Nat) + ((strBytes schema.name).length
      + (1 + ((strBytes schema.version).length + (body.length + 0)))) = pkt.length - 16
      from by omega]

/-- A valid frame preceded by garbage none of whose windows passes the
length check is decoded after the resync, ending at the frame boundary. -/
theorem PacketEncoder.decode_encode {lookup : String → String → Option (List Member)}
    {schema : PacketSchema} {v : FieldVal} {pkt : List Nat} {g : List Nat}
    (henc : PacketEncoder.encode schema v = .ok pkt)
    (hlk : lookup schema.name schema.version = some schema.fields)
    (hex : ExactB (.group schema.fields) v = true)
    (hwin : ∀ j, j < g.length → windowOk (g ++ pkt) j = false) :
    PacketEncoder.decodeFrom lookup (g ++ pkt) 0 = .done v (g.length + pkt.length) := by
  obtain ⟨hv1, hv2, h18, h64⟩ := PacketEncoder.encode_frame henc
  have hlock := PacketEncoder.findLock_locks hwin
    (by simp only [List.length_append]; omega)
    (PacketEncoder.window_at_lock henc g) g.length 0 (by omega)
  rw [PacketEncoder.decodeFrom, hlock]
  simp only [drop_len_append (rfl : g.length = g.length)]
  rw [hv1]
  have hpl : PacketEncoder.postLock lookup pkt.length (pkt.drop 16)
      = .done (some v) (pkt.length - 16) := by
    have := PacketEncoder.postLock_encode henc hlk hex []
    rwa [List.append_nil] at this
  rw [hpl]
  simp only []
  rw [if_neg (by omega)]

/-- Any proper prefix of a valid frame leaves the frame decoder waiting for
more stream. -/
theorem PacketEncoder.prefix_needMore {lookup : String → String → Option (List Member)}
    {schema : PacketSchema} {v : FieldVal} {pkt : List Nat}
    (henc : PacketEncoder.encode schema v = .ok pkt)
    (hlk : lookup schema.name schema.version = some schema.fields)
    (hex : ExactB (.group schema.fields) v = true)
    {i : Nat} (hi : i < pkt.length) :
    PacketEncoder.decodeFrom lookup (pkt.take i) 0 = .needMore := by
  obtain ⟨hv1, hv2, h18, h64⟩ := PacketEncoder.encode_frame henc
  by_cases h16 : i < 16
  · rw [PacketEncoder.decodeFrom, PacketEncoder.findLock,
      dif_neg (by simp only [List.length_take]; omega)]
  · push_neg at h16
    have htake8 : (pkt.take i).take 8 = pkt.take 8 := by
      rw [List.take_take]
      congr 1
      omega
    have hdrop8 : (pkt.take i).drop 8 = (pkt.drop 8).take (i - 8) := List.drop_take i 8 pkt
    have hdt8 : ((pkt.take i).drop 8).take 8 = (pkt.drop 8).take 8 := by
      rw [hdrop8, List.take_take]
      congr 1
      omega
    have hwin0 : windowOk (pkt.take i) 0 = true := by
      rw [windowOk]
      simp only [Nat.zero_add, List.drop_zero]
      rw [htake8, hdt8, hv1, hv2, nat_xor_xor_cancel]
      simp
    have hlock : PacketEncoder.findLock (pkt.take i) 0 = some 0 := by
      rw [PacketEncoder.findLock,
        dif_pos (by simp only [List.length_take]; omega), if_pos hwin0]
    rw [PacketEncoder.decodeFrom, hlock]
    simp only [List.drop_zero]
    rw [htake8, hv1]
    have hfull : PacketEncoder.postLock lookup pkt.length (pkt.drop 16)
        = .done (some v) (pkt.length - 16) := by
      have := PacketEncoder.postLock_encode henc hlk hex []
      rwa [List.append_nil] at this
    have hlen16 : pkt.length - 16 = (pkt.drop 16).length := by
      simp only [List.length_drop]
    have hNM := dlawful_prefix_needMore (postLock_lawful lookup pkt.length) hfull
      (j := i - 16) (by omega)
    have hstream : (pkt.take i).drop 16 = (pkt.drop 16).take (i - 16) :=
      List.drop_take i 16 pkt
    rw [hstream, hNM]

/-! ## Concrete frames and values used to instantiate the properties -/

def demoName : String := "demo"

def demoVersion : String := "1.0.0"

def demoSchema : PacketSchema := ⟨demoName, demoVersion, []⟩

/-- The definitions store of the demo packet: every identifier and version
resolves to the empty FIELDS declaration. -/
def demoLookup : String → String → Option (List Member) := fun _ _ => some []

/-- The 29-byte frame of the demo packet. -/
def demoPkt : List Nat :=
  [0, 0, 0, 0, 0, 0, 0, 29, 255, 255, 255, 255, 255, 255, 255, 226,
   4, 100, 101, 109, 111, 5, 49, 46, 48, 46, 48, 0, 0]

theorem demoBody : encodeField (.group ([] : List Member)) (.groupV []) = .ok [0, 0] := by
  rw [encodeField.eq_def]
  simp only []
  rw [show processFields ([] : List Member) = .ok [] from rfl]
  simp only []
  rw [show presentCount ([] : List Member) [] = .ok 0 from rfl]
  simp only []
  rw [show packNat 2 0 = .ok [0, 0] from by rw [packNat, if_pos (by norm_num)]; rfl]
  simp only []
  rw [encodeMembers]
  rfl

theorem demoExact : ExactB (.group ([] : List Member)) (.groupV []) = true := by
  rw [ExactB.eq_def]
  simp only []
  rw [show processFields ([] : List Member) = .ok [] from rfl]
  simp only []
  rw [ExactMembers]
  decide

theorem demoEncode : PacketEncoder.encode demoSchema (.groupV []) = .ok demoPkt := by
  simp only [PacketEncoder.encode, demoSchema]
  rw [demoBody]
  rfl

def eAcuteStr : String := String.mk [Char.ofNat 0xE9]

/-- C1: the spec claims decode(encode(v)) == v for every valid value of a
registered category, with no silent data loss.  Refuted by the code: for the
valid one-character STRING value U+00E9, StringEncoder.encode writes the
code-point count as the length prefix and truncates the UTF-8 bytes to that
count, and the decoder then fails on the truncated byte instead of
returning the value — the data is silently lost on encode. -/
theorem C1_round_trip_fails :
    encodeField .str (.stringV eAcuteStr) = .ok [0, 1, 195] ∧
    decodeField none .str [0, 1, 195] = .fail .unicodeDecodeError := by
  constructor
  · rw [encodeField.eq_def]
    simp only []
    rfl
  · rw [decodeField.eq_def]
    simp only []
    refine bindD_done_fail rfl ?_
    try simp only []
    refine bindD_done_fail rfl ?_
    try simp only []
    rw [show List.take (beVal (List.take 2 ([0, 1, 195] : List Nat)))
      (List.drop 2 [0, 1, 195]) = [195] from rfl]
    rw [show utf8Decode [195] = none from by
      rw [utf8Decode, if_neg (by norm_num), if_neg (by norm_num), if_pos (by norm_num),
        utf8DecodeTwo]]
    rfl

/-- C2: for every frame produced by PacketEncoder.encode, its first u64 is
the total frame length and its second u64 is that length XOR
0xFFFFFFFFFFFFFFFF.  (The demo instance with identifier "demo", version
"1.0.0" and empty body is the witness.) -/
theorem C2_frame_integrity {schema : PacketSchema} {v : FieldVal} {pkt : List Nat}
    (h : PacketEncoder.encode schema v = .ok pkt) :
    beVal (pkt.take 8) = pkt.length ∧
    beVal ((pkt.drop 8).take 8) = Nat.xor pkt.length 0xFFFFFFFFFFFFFFFF := by
  obtain ⟨h1, h2, _, _⟩ := PacketEncoder.encode_frame h
  exact ⟨h1, h2⟩

theorem C2_frame_integrity_witness :
    (beVal (demoPkt.take 8) = demoPkt.length ∧
      beVal ((demoPkt.drop 8).take 8) = Nat.xor demoPkt.length 0xFFFFFFFFFFFFFFFF) ∧
    demoPkt.length = 29 ∧
    beVal (demoPkt.take 8) = 0x000000000000001D ∧
    beVal ((demoPkt.drop 8).take 8) = 0xFFFFFFFFFFFFFFE2 ∧
    PacketEncoder.encode demoSchema (.groupV []) = .ok demoPkt :=
  ⟨C2_frame_integrity demoEncode, by decide, by decide, by decide, demoEncode⟩

/-- C3: on a length-check mismatch the resync loop advances the start
position by exactly one byte and retries, and a valid frame behind `k`
garbage bytes whose windows all fail the check is decoded with the stream
position left at exactly k + len(packet). -/
theorem C3_resync {lookup : String → String → Option (List Member)}
    {schema : PacketSchema} {v : FieldVal} {pkt g : List Nat}
    (henc : PacketEncoder.encode schema v = .ok pkt)
    (hlk : lookup schema.name schema.version = some schema.fields)
    (hex : ExactB (.group schema.fields) v = true)
    (hk1 : 1 ≤ g.length) (hk64 : g.length ≤ 64)
    (hwin : ∀ j, j < g.length → windowOk (g ++ pkt) j = false) :
    (∀ (buf : List Nat) (p : Nat), p + 16 ≤ buf.length → windowOk buf p = false →
      PacketEncoder.findLock buf p = PacketEncoder.findLock buf (p + 1)) ∧
    PacketEncoder.decodeFrom lookup (g ++ pkt) 0 = .done v (g.length + pkt.length) := by
  constructor
  · intro buf p hp hw
    rw [PacketEncoder.findLock, dif_pos hp, if_neg (by simp [hw])]
  · exact PacketEncoder.decode_encode henc hlk hex hwin

theorem C3_resync_witness :
    (1 ≤ ([255] : List Nat).length ∧ ([255] : List Nat).length ≤ 64 ∧
      (∀ j, j < ([255] : List Nat).length → windowOk ([255] ++ demoPkt) j = false)) ∧
    PacketEncoder.decodeFrom demoLookup ([255] ++ demoPkt) 0
      = .done (.groupV []) (([255] : List Nat).length + demoPkt.length) :=
  ⟨⟨by decide, by decide, by decide⟩,
   (C3_resync demoEncode rfl demoExact (by decide) (by decide) (by decide)).2⟩

/-- C4: on every proper prefix of a valid frame the decoder reports
NeedMore, and after the remaining bytes are appended it returns the same
value as decoding the whole buffer in one pass. -/
theorem C4_resumable {lookup : String → String → Option (List Member)}
    {schema : PacketSchema} {v : FieldVal} {pkt : List Nat}
    (henc : PacketEncoder.encode schema v = .ok pkt)
    (hlk : lookup schema.name schema.version = some schema.fields)
    (hex : ExactB (.group schema.fields) v = true)
    {i : Nat} (hi : i < pkt.length) :
    PacketEncoder.decodeFrom lookup (pkt.take i) 0 = .needMore ∧
    PacketEncoder.decodeFrom lookup (pkt.take i ++ pkt.drop i) 0 = .done v pkt.length := by
  refine ⟨PacketEncoder.prefix_needMore henc hlk hex hi, ?_⟩
  rw [List.take_append_drop]
  have h := PacketEncoder.decode_encode (g := []) henc hlk hex
    (by intro j hj; simp at hj)
  rwa [List.nil_append, List.length_nil, Nat.zero_add] at h

theorem C4_resumable_witness :
    10 < demoPkt.length ∧
    (PacketEncoder.decodeFrom demoLookup (demoPkt.take 10) 0 = .needMore ∧
     PacketEncoder.decodeFrom demoLookup (demoPkt.take 10 ++ demoPkt.drop 10) 0
       = .done (.groupV []) demoPkt.length) :=
  ⟨by decide, C4_resumable demoEncode rfl demoExact (by decide)⟩

theorem encode_uint_length {mvo : Option Nat} {w : Nat}
    (hw : UintEncoder.getPackCode mvo = .ok w) :
    ∀ v bs, encodeField (.uint mvo) (.uintV v) = .ok bs → bs.length = w := by
  intro v bs h
  rw [encodeField.eq_def] at h
  simp only [] at h
  rw [hw] at h
  simp only [] at h
  rw [packNat] at h
  by_cases hv : v < 2 ^ (8 * w)
  · rw [if_pos hv] at h
    cases h
    exact beBytes_length w v
  · rw [if_neg hv] at h
    cases h

theorem encode_int_length {mvo : Option Nat} {w : Nat}
    (hw : IntEncoder.getPackCode mvo = .ok w) :
    ∀ i bs, encodeField (.int mvo) (.intV i) = .ok bs → bs.length = w := by
  intro i bs h
  rw [encodeField.eq_def] at h
  simp only [] at h
  rw [hw] at h
  simp only [] at h
  rw [packInt] at h
  by_cases hv : -(2 ^ (8 * w - 1) : Int) ≤ i ∧ i < 2 ^ (8 * w - 1)
  · rw [if_pos hv] at h
    cases h
    exact beBytes_length w _
  · rw [if_neg hv] at h
    cases h

/-- C5: the byte width of a UINT (and INT) field is the smallest of 1, 2,
4, 8 whose unsigned range strictly exceeds the declared MaxValue (default
2^32-1), independent of the runtime value; a MaxValue at or above 2^64
fails with the uint-size EncodingError. -/
theorem C5_width (mvo : Option Nat) :
    (∀ w, UintEncoder.getPackCode mvo = .ok w →
      w ∈ [1, 2, 4, 8] ∧
      mvo.getD UintEncoder.DEFAULT_MAXVALUE < 2 ^ (8 * w) ∧
      (∀ w2, w2 ∈ ([1, 2, 4, 8] : List Nat) →
        mvo.getD UintEncoder.DEFAULT_MAXVALUE < 2 ^ (8 * w2) → w ≤ w2) ∧
      (∀ v bs, encodeField (.uint mvo) (.uintV v) = .ok bs → bs.length = w) ∧
      (∀ i bs, encodeField (.int mvo) (.intV i) = .ok bs → bs.length = w)) ∧
    (2 ^ 64 ≤ mvo.getD UintEncoder.DEFAULT_MAXVALUE →
      UintEncoder.getPackCode mvo = .error .uintSizeError) := by
  constructor
  · intro w hw
    obtain ⟨hmem, hlt⟩ := UintEncoder.getPackCode_width hw
    refine ⟨hmem, hlt, ?_, encode_uint_length hw, encode_int_length hw⟩
    intro w2 hw2 hlt2
    rw [UintEncoder.getPackCode, UintEncoder.maxValueToPackCode_eq] at hw
    simp at hw2
    split_ifs at hw with h1 h2 h3 h4 <;> cases hw <;>
      rcases hw2 with rfl | rfl | rfl | rfl <;> omega
  · intro hge
    rw [UintEncoder.getPackCode, UintEncoder.maxValueToPackCode_eq,
      if_neg (by omega), if_neg (by omega), if_neg (by omega), if_neg (by omega)]

theorem C5_width_witness :
    UintEncoder.getPackCode (some 1000) = .ok 2 ∧
    (2 ∈ [1, 2, 4, 8] ∧
     (some 1000 : Option Nat).getD UintEncoder.DEFAULT_MAXVALUE < 2 ^ (8 * 2) ∧
     (∀ w2, w2 ∈ ([1, 2, 4, 8] : List Nat) →
       (some 1000 : Option Nat).getD UintEncoder.DEFAULT_MAXVALUE < 2 ^ (8 * w2) → 2 ≤ w2) ∧
     (∀ v bs, encodeField (.uint (some 1000)) (.uintV v) = .ok bs → bs.length = 2) ∧
     (∀ i bs, encodeField (.int (some 1000)) (.intV i) = .ok bs → bs.length = 2)) ∧
    UintEncoder.getPackCode (some (2 ^ 64)) = .error .uintSizeError :=
  ⟨rfl, (C5_width (some 1000)).1 2 rfl,
   (C5_width (some (2 ^ 64))).2 (by norm_num)⟩

def demoFields : List Member :=
  [("a", some 5, false, FieldTy.bool), ("b", none, true, FieldTy.bool),
   ("c", none, false, FieldTy.bool)]

/-- C6: the tag-assignment walk fails on a duplicate field name or a
duplicate explicit tag, assigns each untagged field the smallest tag unused
at that point in declaration order, and on success yields a name-tag
bijection (both projections duplicate-free) determined by the declaration
alone, hence identical on the encode and the decode path. -/
theorem C6_tags (fs : List Member) :
    (∀ m, processFields fs = .ok m →
      m.map Prod.fst = fs.map mName ∧
      (m.map Prod.fst).Nodup ∧ (m.map Prod.snd).Nodup ∧
      (∀ i f, fs[i]? = some f →
        ∃ p, m[i]? = some p ∧ p.1 = mName f ∧
          (∀ t, mTag f = some t → p.2 = t) ∧
          (mTag f = none →
            p.2 ∉ (m.take i).map Prod.snd ∧
            ∀ u, u < p.2 → u ∈ (m.take i).map Prod.snd))) ∧
    (¬ (fs.map mName).Nodup → ∃ e, processFields fs = .error e) ∧
    (∀ (i j : Nat) (f1 f2 : Member) (t : Nat), i < j → fs[i]? = some f1 →
      fs[j]? = some f2 → mTag f1 = some t → mTag f2 = some t →
      ∃ e, processFields fs = .error e) := by
  refine ⟨?_, ?_, ?_⟩
  · intro m hm
    obtain ⟨hlen, hnod, htag, hidx⟩ := processFields_spec hm
    exact ⟨processFields_names hm, hnod, htag, hidx⟩
  · intro hnd
    cases hp : processFields fs with
    | error e => exact ⟨e, rfl⟩
    | ok m =>
      exfalso
      apply hnd
      rw [← processFields_names hp]
      exact (processFields_spec hp).2.1
  · intro i j f1 f2 t hij hf1 hf2 ht1 ht2
    cases hp : processFields fs with
    | error e => exact ⟨e, rfl⟩
    | ok m =>
      exfalso
      obtain ⟨hlen, hnod, htag, hidx⟩ := processFields_spec hp
      obtain ⟨p1, hp1, _, hpt1, _⟩ := hidx i f1 hf1
      obtain ⟨p2, hp2, _, hpt2, _⟩ := hidx j f2 hf2
      have hilen : i < m.length := by
        have hif : i < fs.length := by
          by_contra hcon
          rw [List.getElem?_eq_none (by omega)] at hf1
          cases hf1
        omega
      have hmi : (m.map Prod.snd)[i]? = some t := by
        simp [List.getElem?_map, hp1, hpt1 t ht1]
      have hmj : (m.map Prod.snd)[j]? = some t := by
        simp [List.getElem?_map, hp2, hpt2 t ht2]
      have := @List.getElem?_inj _ i j (m.map Prod.snd) (by simpa using hilen) htag
        (hmi.trans hmj.symm)
      omega

theorem C6_tags_witness :
    processFields demoFields = .ok [("a", 5), ("b", 0), ("c", 1)] ∧
    ([("a", 5), ("b", 0), ("c", 1)] : List (String × Nat)).map Prod.fst
      = demoFields.map mName ∧
    (([("a", 5), ("b", 0), ("c", 1)] : List (String × Nat)).map Prod.fst).Nodup ∧
    (([("a", 5), ("b", 0), ("c", 1)] : List (String × Nat)).map Prod.snd).Nodup :=
  ⟨rfl, ((C6_tags demoFields).1 _ rfl).1, ((C6_tags demoFields).1 _ rfl).2.1,
   ((C6_tags demoFields).1 _ rfl).2.2.1⟩

/-- The first encode pass only accepts an UNSET slot at an Optional member. -/
theorem presentCount_opt : ∀ {fs : List Member} {vs : List FieldVal} {n : Nat},
    presentCount fs vs = .ok n →
    ∀ (i : Nat) (p : Member), fs[i]? = some p → vs[i]? = some FieldVal.unset →
      mOpt p = true := by
  intro fs
  induction fs with
  | nil =>
    intro vs n h i p hp hv
    simp at hp
  | cons f fs ih =>
    intro vs n h i p hp hv
    cases vs with
    | nil => rw [presentCount] at h; cases h
    | cons v vs =>
      rw [presentCount] at h
      cases i with
      | zero =>
        simp only [List.getElem?_cons_zero, Option.some.injEq] at hp hv
        subst hp
        subst hv
        by_cases ho : mOpt f = true
        · exact ho
        · rw [if_pos (show isUnset FieldVal.unset = true from rfl), if_neg ho] at h
          cases h
      | succ i =>
        simp only [List.getElem?_cons_succ] at hp hv
        by_cases hu : isUnset v = true
        · rw [if_pos hu] at h
          by_cases ho : mOpt f = true
          · rw [if_pos ho] at h
            exact ih h i p hp hv
          · rw [if_neg ho] at h
            cases h
        · rw [if_neg hu] at h
          cases hr : presentCount fs vs with
          | error e => rw [hr] at h; simp only [] at h; cases h
          | ok k => exact ih hr i p hp hv

/-- C7: an UNSET Optional member is omitted from the present count and the
tag/value pairs and survives the round trip as UNSET; an UNSET non-Optional
member makes the encode fail, with the error naming the field. -/
theorem C7_optional (fs : List Member) (vs : List FieldVal) :
    (∀ bs, ExactB (.group fs) (.groupV vs) = true →
      encodeField (.group fs) (.groupV vs) = .ok bs →
      bs.take 2 = beBytes 2 (presentNum vs) ∧
      decodeField none (.group fs) bs = .done (.groupV vs) bs.length) ∧
    (∀ (i : Nat) (p : Member), fs[i]? = some p → mOpt p = false →
      vs[i]? = some FieldVal.unset →
      ∀ bs, encodeField (.group fs) (.groupV vs) ≠ .ok bs) ∧
    (∀ (name : String) (fet : Option Nat) (fty : FieldTy) (fs2 : List Member)
      (vs2 : List FieldVal) (m : List (String × Nat)),
      processFields fs = .ok m → fs = (name, fet, false, fty) :: fs2 →
      vs = FieldVal.unset :: vs2 →
      encodeField (.group fs) (.groupV vs) = .error (.fieldUnsetNotOptional name)) := by
  refine ⟨?_, ?_, ?_⟩
  · intro bs hex henc
    refine ⟨?_, ?_⟩
    · rw [ExactB.eq_def] at hex
      simp only [] at hex
      rw [encodeField.eq_def] at henc
      simp only [] at henc
      cases hm : processFields fs with
      | error e => rw [hm] at henc; simp only [] at henc; cases henc
      | ok m =>
        rw [hm] at hex henc
        simp only [] at hex henc
        rw [Bool.and_eq_true, Bool.and_eq_true] at hex
        obtain ⟨⟨hl16, htg⟩, hexm⟩ := hex
        rw [presentCount_ok hexm] at henc
        simp only [packNat] at henc
        have hcnt : presentNum vs < 2 ^ (8 * 2) := by
          have h1 := presentNum_le vs
          have h2 := ExactMembers_length hexm
          have h3 : fs.length < 2 ^ 16 := of_decide_eq_true hl16
          norm_num
          omega
        rw [if_pos hcnt] at henc
        simp only [] at henc
        cases hb : encodeMembers m fs vs with
        | error er => rw [hb] at henc; simp only [] at henc; cases henc
        | ok body =>
          rw [hb] at henc
          simp only [] at henc
          cases henc
          exact take_len_append (beBytes_length 2 _)
    · have h := encodeField_rt (.group fs) (.groupV vs) bs hex henc none (capOK_none _) []
      rwa [List.append_nil] at h
  · intro i p hp hop hv bs henc
    rw [encodeField.eq_def] at henc
    simp only [] at henc
    cases hm : processFields fs with
    | error e => rw [hm] at henc; simp only [] at henc; cases henc
    | ok m =>
      rw [hm] at henc
      simp only [] at henc
      cases hpc : presentCount fs vs with
      | error e => rw [hpc] at henc; simp only [] at henc; cases henc
      | ok n =>
        have hres := presentCount_opt hpc i p hp hv
        rw [hop] at hres
        cases hres
  · intro name fet fty fs2 vs2 m hm hfs hvs
    subst hfs
    subst hvs
    rw [encodeField.eq_def]
    simp only []
    rw [hm]
    simp only []
    rw [show presentCount ((name, fet, false, fty) :: fs2) (FieldVal.unset :: vs2)
        = .error (.fieldUnsetNotOptional name) from by
      rw [presentCount, if_pos (show isUnset FieldVal.unset = true from rfl)]
      rfl]

theorem hexOpt : ExactB (.group [("x", none, true, FieldTy.bool)]) (.groupV [FieldVal.unset])
    = true := by
  rw [ExactB.eq_def]
  simp only []
  rw [show processFields [("x", none, true, FieldTy.bool)] = .ok [("x", 0)] from rfl]
  simp only []
  rw [show ExactMembers [("x", none, true, FieldTy.bool)] [FieldVal.unset] = true from by
    rw [ExactMembers, ExactMembers]
    rfl]
  decide

theorem hencOpt : encodeField (.group [("x", none, true, FieldTy.bool)])
    (.groupV [FieldVal.unset]) = .ok [0, 0] := by
  rw [encodeField.eq_def]
  simp only []
  rw [show processFields [("x", none, true, FieldTy.bool)] = .ok [("x", 0)] from rfl]
  simp only []
  rw [show presentCount [("x", none, true, FieldTy.bool)] [FieldVal.unset] = .ok 0 from rfl]
  simp only []
  rw [show packNat 2 0 = .ok [0, 0] from by rw [packNat, if_pos (by norm_num)]; rfl]
  simp only []
  rw [show encodeMembers [("x", 0)] [("x", none, true, FieldTy.bool)] [FieldVal.unset]
      = .ok [] from by
    rw [encodeMembers, if_pos (show isUnset FieldVal.unset = true from rfl)]
    rw [if_pos (show (true : Bool) = true from rfl)]
    rw [encodeMembers]]
  rfl

theorem C7_optional_witness :
    (([0, 0] : List Nat).take 2 = beBytes 2 (presentNum [FieldVal.unset]) ∧
     decodeField none (.group [("x", none, true, FieldTy.bool)]) [0, 0]
       = .done (.groupV [FieldVal.unset]) ([0, 0] : List Nat).length) ∧
    encodeField (.group [("y", none, false, FieldTy.bool)]) (.groupV [FieldVal.unset])
      = .error (.fieldUnsetNotOptional ("y")) :=
  ⟨(C7_optional [("x", none, true, FieldTy.bool)] [FieldVal.unset]).1 [0, 0] hexOpt hencOpt,
   (C7_optional [("y", none, false, FieldTy.bool)] [FieldVal.unset]).2.2 ("y") none
     FieldTy.bool [] [] [("y", 0)] rfl rfl rfl⟩

def aeStr : String := String.mk [Char.ofNat 97, Char.ofNat 0xE9]

def bigStr : String := String.mk (List.replicate 16385 (Char.ofNat 0x10000))

theorem utf8Bytes_replicate (n : Nat) (c : Char) :
    (utf8Bytes (List.replicate n c)).length = n * (utf8EncodeChar c).length := by
  induction n with
  | zero => simp [utf8Bytes]
  | succ n ih =>
    rw [List.replicate_succ, utf8Bytes, List.length_append, ih]
    ring

/-- C8: the spec claims a 2-byte prefix holding the UTF-8 byte length
followed by those bytes, with strings over 2^16 bytes failing.  Refuted by
the code: StringEncoder uses the code-point count for both the check and
the pack format, so the two-code-point string "aé" is written as prefix 2
with its UTF-8 bytes truncated to 2 instead of prefix 3 with 3 bytes, and
a 16385-code-point string of U+10000 (65540 UTF-8 bytes, over the 2^16
bound) is encoded without error. -/
theorem C8_string_length_bug :
    (StringEncoder.encode aeStr = .ok [0, 2, 97, 195] ∧
      beBytes 2 (strBytes aeStr).length ++ strBytes aeStr = [0, 3, 97, 195, 169]) ∧
    (2 ^ 16 < (strBytes bigStr).length ∧ ∃ bs, StringEncoder.encode bigStr = .ok bs) := by
  refine ⟨⟨rfl, rfl⟩, ?_, ?_⟩
  · rw [strBytes,
      show bigStr.data = List.replicate 16385 (Char.ofNat 0x10000) from rfl,
      utf8Bytes_replicate,
      show (utf8EncodeChar (Char.ofNat 0x10000)).length = 4 from rfl]
    norm_num
  · have hlen : bigStr.length = 16385 := by
      rw [string_length_data,
        show bigStr.data = List.replicate 16385 (Char.ofNat 0x10000) from rfl,
        List.length_replicate]
    rw [StringEncoder.encode,
      if_neg (by
        rw [hlen]
        norm_num [StringEncoder.MAX_LENGTH, StringEncoder.STRING_LENGTH_BYTES]),
      packNat, if_pos (by rw [hlen]; norm_num)]
    simp only []
    exact ⟨_, rfl⟩

/-- C9: a wire tag with no image under the inverse of the name-to-tag
bijection makes the group decoder fail (the code raises KeyError from the
inverse lookup, i.e. the unknown-tag error kind). -/
theorem C9_unknown_tag {fs : List Member} {m : List (String × Nat)} {t : Nat}
    (hm : processFields fs = .ok m) (ht : t < 2 ^ 16) (hlt : lookupTag m t = none)
    {cap : Option Nat} (hcap : capOK cap 2) (n : Nat) (vals : List FieldVal)
    (rest : List Nat) :
    decodeGroupLoop cap fs m (n + 1) vals (beBytes 2 t ++ rest) = .fail .keyError := by
  rw [decodeGroupLoop]
  refine bindD_done_fail (readBytes_run rest (beBytes_length 2 t) hcap) ?_
  try simp only []
  rw [beVal_beBytes _ _ (by norm_num; omega), hlt]
  rfl

theorem C9_unknown_tag_witness :
    processFields [("a", some 5, false, FieldTy.bool)] = .ok [("a", 5)] ∧
    lookupTag [("a", 5)] 7 = none ∧
    decodeGroupLoop none [("a", some 5, false, FieldTy.bool)] [("a", 5)] 1 [FieldVal.unset]
      (beBytes 2 7 ++ []) = .fail .keyError :=
  ⟨rfl, rfl,
   C9_unknown_tag
     (show processFields [("a", some 5, false, FieldTy.bool)] = .ok [("a", 5)] from rfl)
     (by norm_num) (show lookupTag [("a", 5)] 7 = none from rfl)
     (capOK_none 2) 0 [FieldVal.unset] []⟩

/-- C10: UINT and INT encoding never consult the declared MaxValue at
runtime: a UINT value above MaxValue that still fits the selected width's
unsigned range, and an INT value above MaxValue that still fits its signed
range, encode at that width and decode back unchanged; only values outside
the selected width's range fail. -/
theorem C10_no_max_check {mvo : Option Nat} {w : Nat}
    (hw : UintEncoder.getPackCode mvo = .ok w) :
    (∀ v, mvo.getD UintEncoder.DEFAULT_MAXVALUE < v → v < 2 ^ (8 * w) →
      encodeField (.uint mvo) (.uintV v) = .ok (beBytes w v) ∧
      decodeField none (.uint mvo) (beBytes w v) = .done (.uintV v) w) ∧
    (∀ v, 2 ^ (8 * w) ≤ v → encodeField (.uint mvo) (.uintV v) = .error .structError) ∧
    (∀ i : Int, (mvo.getD UintEncoder.DEFAULT_MAXVALUE : Int) < i →
      i < 2 ^ (8 * w - 1) →
      encodeField (.int mvo) (.intV i) = .ok (beBytes w (i % (2 ^ (8 * w) : Int)).toNat) ∧
      (beBytes w (i % (2 ^ (8 * w) : Int)).toNat).length = w ∧
      decodeField none (.int mvo) (beBytes w (i % (2 ^ (8 * w) : Int)).toNat)
        = .done (.intV i) w) ∧
    (∀ i : Int, i < -(2 ^ (8 * w - 1) : Int) ∨ (2 ^ (8 * w - 1) : Int) ≤ i →
      encodeField (.int mvo) (.intV i) = .error .structError) := by
  have hwi : IntEncoder.getPackCode mvo = .ok w := by
    rw [IntEncoder.getPackCode]
    exact hw
  refine ⟨?_, ?_, ?_, ?_⟩
  · intro v hgt hlt
    have henc : encodeField (.uint mvo) (.uintV v) = .ok (beBytes w v) := by
      rw [encodeField.eq_def]
      simp only []
      rw [hw]
      simp only []
      rw [packNat, if_pos hlt]
    refine ⟨henc, ?_⟩
    have hexv : ExactB (.uint mvo) (.uintV v) = true := by
      rw [ExactB.eq_def]
      simp only []
      rw [hw]
      simp only []
      exact decide_eq_true hlt
    have h := encodeField_rt (.uint mvo) (.uintV v) (beBytes w v) hexv henc none
      (capOK_none _) []
    rwa [List.append_nil, beBytes_length] at h
  · intro v hge
    rw [encodeField.eq_def]
    simp only []
    rw [hw]
    simp only []
    rw [packNat, if_neg (by omega)]
  · intro i hgt hlt
    have h0 : (0 : Int) ≤ 2 ^ (8 * w - 1) := by positivity
    have hge0 : -(2 ^ (8 * w - 1) : Int) ≤ i := by omega
    have henc : encodeField (.int mvo) (.intV i)
        = .ok (beBytes w (i % (2 ^ (8 * w) : Int)).toNat) := by
      rw [encodeField.eq_def]
      simp only []
      rw [hwi]
      simp only []
      rw [packInt, if_pos ⟨hge0, hlt⟩]
    have hexv : ExactB (.int mvo) (.intV i) = true := by
      rw [ExactB.eq_def]
      simp only []
      rw [hwi]
      simp only []
      exact decide_eq_true ⟨hge0, hlt⟩
    refine ⟨henc, beBytes_length _ _, ?_⟩
    have h := encodeField_rt (.int mvo) (.intV i) _ hexv henc none (capOK_none _) []
    rwa [List.append_nil, beBytes_length] at h
  · intro i hout
    rw [encodeField.eq_def]
    simp only []
    rw [hwi]
    simp only []
    rw [packInt, if_neg (by omega)]

theorem C10_no_max_check_witness :
    (some 10 : Option Nat).getD UintEncoder.DEFAULT_MAXVALUE < 200 ∧
    (encodeField (.uint (some 10)) (.uintV 200) = .ok (beBytes 1 200) ∧
     decodeField none (.uint (some 10)) (beBytes 1 200) = .done (.uintV 200) 1) ∧
    encodeField (.uint (some 10)) (.uintV 256) = .error .structError ∧
    ((some 10 : Option Nat).getD UintEncoder.DEFAULT_MAXVALUE : Int) < 100 ∧
    (encodeField (.int (some 10)) (.intV 100)
        = .ok (beBytes 1 ((100 % (2 ^ (8 * 1) : Int)).toNat)) ∧
     (beBytes 1 ((100 % (2 ^ (8 * 1) : Int)).toNat)).length = 1 ∧
     decodeField none (.int (some 10)) (beBytes 1 ((100 % (2 ^ (8 * 1) : Int)).toNat))
        = .done (.intV 100) 1) ∧
    encodeField (.int (some 10)) (.intV 128) = .error .structError :=
  ⟨by norm_num,
   (C10_no_max_check (show UintEncoder.getPackCode (some 10) = .ok 1 from rfl)).1 200
     (by norm_num) (by norm_num),
   (C10_no_max_check (show UintEncoder.getPackCode (some 10) = .ok 1 from rfl)).2.1 256
     (by norm_num),
   by norm_num,
   (C10_no_max_check (show UintEncoder.getPackCode (some 10) = .ok 1 from rfl)).2.2.1 100
     (by norm_num) (by norm_num),
   (C10_no_max_check (show UintEncoder.getPackCode (some 10) = .ok 1 from rfl)).2.2.2 128
     (Or.inr (by norm_num))⟩

end Playground
